import Mathlib

set_option maxHeartbeats 1000000

/-!
Verification of the job-lifecycle core (`src/classes/job.ts`): a shallow
embedding of the `Job` class, its serialization (`toJSON` / `fromJSON` /
`fromId`), the failure-transition logic (`moveToFailed` / `saveAttempt`),
completion (`moveToCompleted`) and the already-finished path of
`waitUntilFinished`, together with theorems about the spec's claims.

JavaScript values are modelled by the inductive `JSVal` (JSON values plus
`undefined`; numbers are modelled as integers).  `JSON.stringify` and
`JSON.parse` are modelled by an executable printer and parser over
`List Char`; the spec treats serialization-library internals as out of
scope, so the model covers the JSON fragment the module actually produces
and consumes (integer numbers, `\u00XX`-style escapes for control
characters, no insignificant whitespace).
-/

/-- JavaScript runtime values as far as the job module observes them:
JSON-representable values plus `undefined`.  Numbers are integers. -/
inductive JSVal where
  | undefined
  | null
  | bool (b : Bool)
  | num (n : Int)
  | str (s : String)
  | arr (elems : List JSVal)
  | obj (fields : List (String × JSVal))

/-- JavaScript truthiness: `undefined`, `null`, `false`, `0` and `""` are
falsy, every other modelled value is truthy. -/
def jsFalsy : JSVal → Bool
  | .undefined => true
  | .null => true
  | .bool b => !b
  | .num n => n == 0
  | .str s => s == ""
  | .arr _ => false
  | .obj _ => false

def jsTruthy (v : JSVal) : Bool := !jsFalsy v

/-- JavaScript `a || b`. -/
def jsOr (a b : JSVal) : JSVal := if jsFalsy a then b else a

mutual

/-- A value is wellformed when it contains no `undefined` (such values have
an exact JSON image). -/
def wfVal : JSVal → Bool
  | .undefined => false
  | .arr l => wfList l
  | .obj l => wfFields l
  | _ => true

def wfList : List JSVal → Bool
  | [] => true
  | v :: vs => wfVal v && wfList vs

def wfFields : List (String × JSVal) → Bool
  | (_, v) :: ps => wfVal v && wfFields ps
  | [] => true

end

/-- The decimal digit character for `d < 10`. -/
def digitChar (d : Nat) : Char := Char.ofNat (48 + d)

/-- Lowercase hexadecimal digit character for `d < 16`. -/
def hexDig (d : Nat) : Char :=
  if d < 10 then Char.ofNat (48 + d) else Char.ofNat (87 + d)

/-- JSON escaping of one string character. -/
def escChar (c : Char) : List Char :=
  if c = '"' then ['\\', '"']
  else if c = '\\' then ['\\', '\\']
  else if c = '\n' then ['\\', 'n']
  else if c = '\r' then ['\\', 'r']
  else if c = '\t' then ['\\', 't']
  else if c.toNat < 32 then '\\' :: 'u' :: '0' :: '0' :: [hexDig (c.toNat / 16), hexDig (c.toNat % 16)]
  else [c]

def escapeList : List Char → List Char
  | [] => []
  | c :: cs => escChar c ++ escapeList cs

/-- Printed form of a JSON string literal. -/
def printStringLit (s : String) : List Char := '"' :: (escapeList s.data ++ ['"'])

def natDigitsAux : Nat → Nat → List Char
  | 0, _ => []
  | fuel + 1, n =>
    if n < 10 then [digitChar n] else (natDigitsAux fuel (n / 10)) ++ [digitChar (n % 10)]

/-- Decimal digits of a natural number, most significant first. -/
def natDigits (n : Nat) : List Char := natDigitsAux (n + 1) n

theorem natDigitsAux_congr (f1 : Nat) : ∀ f2 n, n < f1 → n < f2 →
    natDigitsAux f1 n = natDigitsAux f2 n := by
  induction f1 with
  | zero => omega
  | succ f1 ih =>
    intro f2 n h1 h2
    cases f2 with
    | zero => omega
    | succ f2 =>
      simp only [natDigitsAux]
      split
      · rfl
      · next h10 => rw [ih f2 (n / 10) (by omega) (by omega)]

theorem natDigits_eq (n : Nat) :
    natDigits n = if n < 10 then [digitChar n]
      else (natDigits (n / 10)) ++ [digitChar (n % 10)] := by
  show natDigitsAux (n + 1) n = _
  rw [natDigitsAux]
  split
  · rfl
  · next h =>
    rw [natDigitsAux_congr n (n / 10 + 1) (n / 10) (by omega) (by omega)]
    rfl

/-- Decimal form of an integer. -/
def intChars (n : Int) : List Char :=
  if n < 0 then '-' :: natDigits n.natAbs else natDigits n.toNat

/-- Whether a field list still contains a field with a defined value
(`JSON.stringify` skips `undefined`-valued fields). -/
def hasDefinedField : List (String × JSVal) → Bool
  | [] => false
  | (_, .undefined) :: ps => hasDefinedField ps
  | _ :: _ => true

mutual

/-- Printed (stringified) form of a value.  A bare `undefined` only occurs
inside arrays in JS stringification, where it prints as `null`; top-level
`undefined` is handled by `jsonStringify`. -/
def printVal : JSVal → List Char
  | .undefined => "null".data
  | .null => "null".data
  | .bool true => "true".data
  | .bool false => "false".data
  | .num n => intChars n
  | .str s => printStringLit s
  | .arr l => '[' :: (printElems l ++ [']'])
  | .obj l => '{' :: (printFields l ++ ['}'])

def printElems : List JSVal → List Char
  | [] => []
  | [v] => printVal v
  | v :: vs => printVal v ++ ',' :: printElems vs

def printFields : List (String × JSVal) → List Char
  | [] => []
  | (_, .undefined) :: ps => printFields ps
  | (k, v) :: ps =>
    printStringLit k ++ ':' :: printVal v ++
      (if hasDefinedField ps then ',' :: printFields ps else printFields ps)

end

/-- Model of `JSON.stringify`: `undefined` at top level stringifies to
`undefined` (no string), every other value to its printed form. -/
def jsonStringify : JSVal → Option String
  | .undefined => none
  | v => some ⟨printVal v⟩

mutual

/-- Model of JavaScript `String(v)` coercion (used by `JSON.parse` and
`parseInt` when handed a non-string). -/
def jsToPrimString : JSVal → List Char
  | .undefined => "undefined".data
  | .null => "null".data
  | .bool true => "true".data
  | .bool false => "false".data
  | .num n => intChars n
  | .str s => s.data
  | .arr l => jsPrimElems l
  | .obj _ => "[object Object]".data

def jsPrimElems : List JSVal → List Char
  | [] => []
  | [v] => jsPrimOne v
  | v :: vs => jsPrimOne v ++ ',' :: jsPrimElems vs

def jsPrimOne : JSVal → List Char
  | .undefined => []
  | .null => []
  | .bool true => "true".data
  | .bool false => "false".data
  | .num n => intChars n
  | .str s => s.data
  | .arr l => jsPrimElems l
  | .obj _ => "[object Object]".data

end

/-- String coercion packaged as a `String`. -/
def jsCoerce (v : JSVal) : String := ⟨jsToPrimString v⟩

def isDigitChar (c : Char) : Bool := 48 ≤ c.toNat && c.toNat ≤ 57

def digVal (c : Char) : Nat := c.toNat - 48

def hexVal (c : Char) : Option Nat :=
  if 48 ≤ c.toNat && c.toNat ≤ 57 then some (c.toNat - 48)
  else if 97 ≤ c.toNat && c.toNat ≤ 102 then some (c.toNat - 87)
  else none

/-- Consume leading decimal digits, accumulating their value. -/
def parseNatAux : Nat → List Char → Nat × List Char
  | acc, [] => (acc, [])
  | acc, c :: cs =>
    if isDigitChar c then parseNatAux (acc * 10 + digVal c) cs else (acc, c :: cs)

/-- Parse an optionally negated decimal integer. -/
def parseIntChars : List Char → Except Unit (Int × List Char)
  | [] => .error ()
  | c :: cs =>
    if c = '-' then
      match cs with
      | [] => .error ()
      | c2 :: cs2 =>
        if isDigitChar c2 then
          let r := parseNatAux (digVal c2) cs2
          .ok (-(r.1 : Int), r.2)
        else .error ()
    else if isDigitChar c then
      let r := parseNatAux (digVal c) cs
      .ok ((r.1 : Int), r.2)
    else .error ()

/-- Parse the body of a JSON string literal (after the opening quote),
accumulating decoded characters in reverse. -/
def parseStrBody : List Char → List Char → Except Unit (String × List Char)
  | _, [] => .error ()
  | acc, c :: cs =>
    if c = '"' then .ok (⟨acc.reverse⟩, cs)
    else if c = '\\' then
      match cs with
      | [] => .error ()
      | e :: cs2 =>
        if e = '"' then parseStrBody ('"' :: acc) cs2
        else if e = '\\' then parseStrBody ('\\' :: acc) cs2
        else if e = 'n' then parseStrBody ('\n' :: acc) cs2
        else if e = 'r' then parseStrBody ('\r' :: acc) cs2
        else if e = 't' then parseStrBody ('\t' :: acc) cs2
        else if e = 'u' then
          match cs2 with
          | h1 :: h2 :: h3 :: h4 :: cs3 =>
            match hexVal h1, hexVal h2, hexVal h3, hexVal h4 with
            | some a, some b, some c3, some d =>
              let n := ((a * 16 + b) * 16 + c3) * 16 + d
              if n < 55296 then parseStrBody (Char.ofNat n :: acc) cs3 else .error ()
            | _, _, _, _ => .error ()
          | _ => .error ()
        else .error ()
    else parseStrBody (c :: acc) cs

mutual

/-- Fuel-indexed JSON value parser. -/
def parseVal : Nat → List Char → Except Unit (JSVal × List Char)
  | 0, _ => .error ()
  | _ + 1, [] => .error ()
  | fuel + 1, c :: cs =>
    if isDigitChar c || c = '-' then
      (parseIntChars (c :: cs)).map (fun r => (.num r.1, r.2))
    else if c = '"' then
      (parseStrBody [] cs).map (fun r => (.str r.1, r.2))
    else if c = '[' then
      (parseElems fuel cs).map (fun r => (.arr r.1, r.2))
    else if c = '{' then
      (parseFlds fuel cs).map (fun r => (.obj r.1, r.2))
    else if c = 'n' then
      match cs with
      | 'u' :: 'l' :: 'l' :: cs2 => .ok (.null, cs2)
      | _ => .error ()
    else if c = 't' then
      match cs with
      | 'r' :: 'u' :: 'e' :: cs2 => .ok (.bool true, cs2)
      | _ => .error ()
    else if c = 'f' then
      match cs with
      | 'a' :: 'l' :: ('s' :: 'e' :: cs2) => .ok (.bool false, cs2)
      | _ => .error ()
    else .error ()

/-- Parse array elements up to and including the closing bracket. -/
def parseElems : Nat → List Char → Except Unit (List JSVal × List Char)
  | 0, _ => .error ()
  | _ + 1, [] => .error ()
  | fuel + 1, c :: cs =>
    if c = ']' then .ok ([], cs)
    else
      match parseVal fuel (c :: cs) with
      | .error exc => .error exc
      | .ok (v, r) =>
        match r with
        | ',' :: r2 =>
          match parseElems fuel r2 with
          | .error exc => .error exc
          | .ok (l, r3) => .ok (v :: l, r3)
        | ']' :: r2 => .ok ([v], r2)
        | _ => .error ()

/-- Parse object fields up to and including the closing brace. -/
def parseFlds : Nat → List Char → Except Unit (List (String × JSVal) × List Char)
  | 0, _ => .error ()
  | _ + 1, [] => .error ()
  | fuel + 1, c :: cs =>
    if c = '}' then .ok ([], cs)
    else if c = '"' then
      match parseStrBody [] cs with
      | .error exc => .error exc
      | .ok (k, r1) =>
        match r1 with
        | ':' :: r2 =>
          match parseVal fuel r2 with
          | .error exc => .error exc
          | .ok (v, r3) =>
            match r3 with
            | ',' :: r4 =>
              match parseFlds fuel r4 with
              | .error exc => .error exc
              | .ok (l, r5) => .ok ((k, v) :: l, r5)
            | '}' :: r4 => .ok ([(k, v)], r4)
            | _ => .error ()
        | _ => .error ()
    else .error ()

end

/-- Model of `JSON.parse`: parse the whole string as one JSON value. -/
def jsonParse (s : String) : Except Unit JSVal :=
  match parseVal (2 * s.data.length + 2) s.data with
  | .ok (v, []) => .ok v
  | _ => .error ()

/-- A list is a safe continuation after a printed number: it does not start
with a digit. -/
def delimB (cs : List Char) : Bool :=
  match cs with
  | c :: _ => !isDigitChar c
  | [] => true

def foldDigits (acc : Nat) (ds : List Char) : Nat :=
  ds.foldl (fun a c => a * 10 + digVal c) acc

theorem digitChar_isDigit (d : Nat) (h : d < 10) : isDigitChar (digitChar d) = true := by
  interval_cases d <;> decide

theorem digVal_digitChar (d : Nat) (h : d < 10) : digVal (digitChar d) = d := by
  interval_cases d <;> decide

theorem natDigits_ne_nil (n : Nat) : natDigits n ≠ [] := by
  rw [natDigits_eq]
  split <;> simp

theorem natDigits_all (n : Nat) : ∀ c ∈ natDigits n, isDigitChar c = true := by
  induction n using Nat.strong_induction_on with
  | _ m ih =>
    rw [natDigits_eq]
    split
    · next h =>
      intro c hc
      simp only [List.mem_singleton] at hc
      subst hc
      exact digitChar_isDigit m h
    · next h =>
      intro c hc
      rw [List.mem_append] at hc
      rcases hc with hc | hc
      · have hdiv : m / 10 < m := by omega
        exact ih (m / 10) hdiv c hc
      · simp only [List.mem_singleton] at hc
        subst hc
        exact digitChar_isDigit (m % 10) (Nat.mod_lt _ (by omega))

theorem parseNatAux_append (ds : List Char) :
    ∀ acc rest, (∀ c ∈ ds, isDigitChar c = true) → delimB rest = true →
      parseNatAux acc (ds ++ rest) = (foldDigits acc ds, rest) := by
  induction ds with
  | nil =>
    intro acc rest _ hrest
    cases rest with
    | nil => rfl
    | cons c cs =>
      simp only [delimB, Bool.not_eq_true'] at hrest
      simp [parseNatAux, hrest, foldDigits]
  | cons d ds ih =>
    intro acc rest hds hrest
    have hd : isDigitChar d = true := hds d (by simp)
    simp only [List.cons_append, parseNatAux, hd, if_true, List.append_eq]
    rw [ih _ rest (fun c hc => hds c (by simp [hc])) hrest]
    simp [foldDigits]

theorem foldDigits_natDigits (n : Nat) :
    ∀ acc, foldDigits acc (natDigits n) = acc * 10 ^ (natDigits n).length + n := by
  induction n using Nat.strong_induction_on with
  | _ m ih =>
    intro acc
    rw [natDigits_eq]
    split
    · next h =>
      simp [foldDigits, digVal_digitChar m h]
    · next h =>
      have hdiv : m / 10 < m := by omega
      rw [foldDigits, List.foldl_append, ← foldDigits, ← foldDigits, ih (m / 10) hdiv acc]
      have hmod : digVal (digitChar (m % 10)) = m % 10 :=
        digVal_digitChar _ (Nat.mod_lt _ (by omega))
      simp only [foldDigits, List.foldl_cons, List.foldl_nil, hmod,
        List.length_append, List.length_singleton]
      rw [pow_succ]
      have := Nat.div_add_mod m 10
      ring_nf
      omega

theorem parseNatAux_natDigits (n : Nat) (rest : List Char) (hrest : delimB rest = true) :
    parseNatAux 0 (natDigits n ++ rest) = (n, rest) := by
  rw [parseNatAux_append _ _ _ (natDigits_all n) hrest, foldDigits_natDigits]
  simp

theorem parseIntChars_print (n : Int) (rest : List Char) (hrest : delimB rest = true) :
    parseIntChars (intChars n ++ rest) = .ok (n, rest) := by
  by_cases hn : n < 0
  · simp only [intChars, if_pos hn]
    obtain ⟨d, ds, hds⟩ := List.exists_cons_of_ne_nil (natDigits_ne_nil n.natAbs)
    have hall := natDigits_all n.natAbs
    rw [hds] at hall ⊢
    have hd : isDigitChar d = true := hall d (by simp)
    simp only [List.cons_append, parseIntChars, reduceIte, hd, if_true]
    have : parseNatAux 0 ((d :: ds) ++ rest) = (n.natAbs, rest) := by
      rw [← hds, parseNatAux_natDigits _ _ hrest]
    simp only [List.cons_append, parseNatAux, hd, if_true, List.append_eq] at this
    simp only [Nat.zero_mul, Nat.zero_add] at this
    rw [this]
    simp only [Except.ok.injEq, Prod.mk.injEq, and_true]
    omega
  · simp only [intChars, if_neg hn]
    obtain ⟨d, ds, hds⟩ := List.exists_cons_of_ne_nil (natDigits_ne_nil n.toNat)
    have hall := natDigits_all n.toNat
    rw [hds] at hall ⊢
    have hd : isDigitChar d = true := hall d (by simp)
    have hdm : d ≠ '-' := by
      intro he
      rw [he] at hd
      simp [isDigitChar] at hd
    simp only [List.cons_append, parseIntChars, if_neg hdm, hd, if_true]
    have : parseNatAux 0 ((d :: ds) ++ rest) = (n.toNat, rest) := by
      rw [← hds, parseNatAux_natDigits _ _ hrest]
    simp only [List.cons_append, parseNatAux, hd, if_true, List.append_eq] at this
    simp only [Nat.zero_mul, Nat.zero_add] at this
    rw [this]
    simp only [Except.ok.injEq, Prod.mk.injEq, and_true]
    omega

theorem hexVal_hexDig (d : Nat) (h : d < 16) : hexVal (hexDig d) = some d := by
  interval_cases d <;> decide

theorem parseStrBody_step_quote (acc rest : List Char) :
    parseStrBody acc ('"' :: rest) = .ok (⟨acc.reverse⟩, rest) := by
  conv_lhs => rw [parseStrBody.eq_def]
  simp only [Char.reduceEq, reduceIte]

theorem parseStrBody_step_plain (c : Char) (acc rest : List Char)
    (h1 : ¬c = '"') (h2 : ¬c = '\\') :
    parseStrBody acc (c :: rest) = parseStrBody (c :: acc) rest := by
  conv_lhs => rw [parseStrBody.eq_def]
  simp only [if_neg h1, if_neg h2]

theorem parseStrBody_step_escQ (acc rest : List Char) :
    parseStrBody acc ('\\' :: '"' :: rest) = parseStrBody ('"' :: acc) rest := by
  conv_lhs => rw [parseStrBody.eq_def]
  simp only [Char.reduceEq, reduceIte]

theorem parseStrBody_step_escB (acc rest : List Char) :
    parseStrBody acc ('\\' :: '\\' :: rest) = parseStrBody ('\\' :: acc) rest := by
  conv_lhs => rw [parseStrBody.eq_def]
  simp only [Char.reduceEq, reduceIte]

theorem parseStrBody_step_escN (acc rest : List Char) :
    parseStrBody acc ('\\' :: 'n' :: rest) = parseStrBody ('\n' :: acc) rest := by
  conv_lhs => rw [parseStrBody.eq_def]
  simp only [Char.reduceEq, reduceIte]

theorem parseStrBody_step_escR (acc rest : List Char) :
    parseStrBody acc ('\\' :: 'r' :: rest) = parseStrBody ('\r' :: acc) rest := by
  conv_lhs => rw [parseStrBody.eq_def]
  simp only [Char.reduceEq, reduceIte]

theorem parseStrBody_step_escT (acc rest : List Char) :
    parseStrBody acc ('\\' :: 't' :: rest) = parseStrBody ('\t' :: acc) rest := by
  conv_lhs => rw [parseStrBody.eq_def]
  simp only [Char.reduceEq, reduceIte]

theorem parseStrBody_step_escU (h1 h2 h3 h4 : Char) (a b c3 d : Nat) (acc rest : List Char)
    (hv1 : hexVal h1 = some a) (hv2 : hexVal h2 = some b)
    (hv3 : hexVal h3 = some c3) (hv4 : hexVal h4 = some d)
    (hlt : ((a * 16 + b) * 16 + c3) * 16 + d < 55296) :
    parseStrBody acc ('\\' :: 'u' :: h1 :: h2 :: h3 :: h4 :: rest) =
      parseStrBody (Char.ofNat (((a * 16 + b) * 16 + c3) * 16 + d) :: acc) rest := by
  conv_lhs => rw [parseStrBody.eq_def]
  simp only [Char.reduceEq, reduceIte, hv1, hv2, hv3, hv4, if_pos hlt]

theorem parseStrBody_escape (s : List Char) :
    ∀ acc rest, parseStrBody acc (escapeList s ++ '"' :: rest) = .ok (⟨acc.reverse ++ s⟩, rest) := by
  induction s with
  | nil =>
    intro acc rest
    simp only [escapeList, List.nil_append, parseStrBody_step_quote, List.append_nil]
  | cons c cs ih =>
    intro acc rest
    simp only [escapeList, List.append_assoc]
    by_cases hq : c = '"'
    · subst hq
      simp only [escChar, reduceIte, List.cons_append, List.nil_append,
        parseStrBody_step_escQ, ih]
      simp
    · by_cases hb : c = '\\'
      · subst hb
        simp only [escChar, Char.reduceEq, reduceIte, List.cons_append, List.nil_append]
        rw [parseStrBody_step_escB, ih]
        simp
      · by_cases h3 : c = '\n'
        · subst h3
          simp only [escChar, Char.reduceEq, reduceIte, List.cons_append, List.nil_append]
          rw [parseStrBody_step_escN, ih]
          simp
        · by_cases h4 : c = '\r'
          · subst h4
            simp only [escChar, Char.reduceEq, reduceIte, List.cons_append, List.nil_append]
            rw [parseStrBody_step_escR, ih]
            simp
          · by_cases h5 : c = '\t'
            · subst h5
              simp only [escChar, Char.reduceEq, reduceIte, List.cons_append, List.nil_append]
              rw [parseStrBody_step_escT, ih]
              simp
            · by_cases h6 : c.toNat < 32
              · have hesc : escChar c =
                    '\\' :: 'u' :: '0' :: '0' :: [hexDig (c.toNat / 16), hexDig (c.toNat % 16)] := by
                  rw [escChar, if_neg hq, if_neg hb, if_neg h3, if_neg h4, if_neg h5, if_pos h6]
                rw [hesc]
                simp only [List.cons_append, List.nil_append]
                rw [parseStrBody_step_escU '0' '0' (hexDig (c.toNat / 16)) (hexDig (c.toNat % 16))
                  0 0 (c.toNat / 16) (c.toNat % 16) acc _ (by decide) (by decide)
                  (hexVal_hexDig _ (by omega)) (hexVal_hexDig _ (Nat.mod_lt _ (by omega)))
                  (by omega)]
                have hchar : ((0 * 16 + 0) * 16 + c.toNat / 16) * 16 + c.toNat % 16 = c.toNat := by
                  omega
                rw [hchar, Char.ofNat_toNat, ih]
                simp
              · have hesc : escChar c = [c] := by
                  rw [escChar, if_neg hq, if_neg hb, if_neg h3, if_neg h4, if_neg h5, if_neg h6]
                rw [hesc]
                simp only [List.cons_append, List.nil_append]
                rw [parseStrBody_step_plain c acc _ hq hb, ih]
                simp

theorem stringMk_data (s : String) : (⟨s.data⟩ : String) = s := rfl

mutual

/-- Fuel sufficient for `parseVal` on this value's printed form. -/
def pcost : JSVal → Nat
  | .arr l => 1 + ecost l
  | .obj l => 1 + fcost l
  | _ => 1

def ecost : List JSVal → Nat
  | [] => 1
  | v :: vs => 1 + pcost v + ecost vs

def fcost : List (String × JSVal) → Nat
  | (_, v) :: ps => 1 + pcost v + fcost ps
  | [] => 1

end

theorem pcost_pos (v : JSVal) : 1 ≤ pcost v := by
  cases v <;> simp [pcost]

theorem ecost_pos (l : List JSVal) : 1 ≤ ecost l := by
  cases l with
  | nil => simp [ecost]
  | cons v vs => simp only [ecost]; omega

theorem fcost_pos (ps : List (String × JSVal)) : 1 ≤ fcost ps := by
  cases ps with
  | nil => simp [fcost]
  | cons p ps =>
    obtain ⟨k, v⟩ := p
    simp only [fcost]
    omega

/-- First characters that can start a printed JSON value. -/
def headOK (c : Char) : Bool :=
  isDigitChar c || c = '-' || c = '"' || c = '[' || c = '{' || c = 'n' || c = 't' || c = 'f'

theorem intChars_cons (n : Int) :
    ∃ c t, intChars n = c :: t ∧ (isDigitChar c || c = '-') = true := by
  unfold intChars
  split
  · exact ⟨'-', _, rfl, by simp⟩
  · obtain ⟨d, ds, h⟩ := List.exists_cons_of_ne_nil (natDigits_ne_nil (Int.toNat _))
    refine ⟨d, ds, h, ?_⟩
    have hd := natDigits_all _ d (h ▸ List.mem_cons_self d ds)
    simp [hd]

theorem printVal_cons (v : JSVal) : ∃ c t, printVal v = c :: t ∧ headOK c = true := by
  cases v with
  | undefined => exact ⟨'n', _, rfl, by decide⟩
  | null => exact ⟨'n', _, rfl, by decide⟩
  | bool b =>
    cases b with
    | false => exact ⟨'f', _, rfl, by decide⟩
    | true => exact ⟨'t', _, rfl, by decide⟩
  | num n =>
    obtain ⟨c, t, hct, hc⟩ := intChars_cons n
    refine ⟨c, t, hct, ?_⟩
    rcases Bool.or_eq_true_iff.mp hc with h | h <;> simp [headOK, h]
  | str s => exact ⟨'"', _, rfl, by decide⟩
  | arr l => exact ⟨'[', _, rfl, by decide⟩
  | obj l => exact ⟨'{', _, rfl, by decide⟩

theorem headOK_ne_rsq (c : Char) (h : headOK c = true) : ¬c = ']' := by
  intro he
  subst he
  revert h
  decide

theorem printVal_length_pos (v : JSVal) : 1 ≤ (printVal v).length := by
  obtain ⟨c, t, hct, _⟩ := printVal_cons v
  rw [hct]
  simp

theorem parseVal_null (fuel : Nat) (cs : List Char) :
    parseVal (fuel + 1) ('n' :: 'u' :: ('l' :: 'l' :: cs)) = .ok (.null, cs) := by
  simp only [parseVal]
  simp [isDigitChar, Char.reduceEq]

theorem parseVal_true (fuel : Nat) (cs : List Char) :
    parseVal (fuel + 1) ('t' :: 'r' :: ('u' :: 'e' :: cs)) = .ok (.bool true, cs) := by
  simp only [parseVal]
  simp [isDigitChar, Char.reduceEq]

theorem parseVal_false (fuel : Nat) (cs : List Char) :
    parseVal (fuel + 1) ('f' :: 'a' :: ('l' :: 's' :: ('e' :: cs))) = .ok (.bool false, cs) := by
  simp only [parseVal]
  simp [isDigitChar, Char.reduceEq]

theorem parseVal_num (fuel : Nat) (n : Int) (rest : List Char) (hrest : delimB rest = true) :
    parseVal (fuel + 1) (intChars n ++ rest) = .ok (.num n, rest) := by
  obtain ⟨c, t, hct, hc⟩ := intChars_cons n
  rw [hct, List.cons_append]
  simp only [parseVal]
  rw [if_pos hc, ← List.cons_append, ← hct, parseIntChars_print n rest hrest]
  rfl

theorem parseVal_str (fuel : Nat) (s : String) (rest : List Char) :
    parseVal (fuel + 1) (printStringLit s ++ rest) = .ok (.str s, rest) := by
  rw [printStringLit, List.cons_append]
  simp only [parseVal]
  simp only [isDigitChar, Char.reduceEq]
  rw [List.append_assoc]
  simp only [List.cons_append, List.nil_append, Bool.false_or, decide_True, decide_False,
    if_true, if_false]
  rw [parseStrBody_escape s.data [] rest]
  simp [stringMk_data, Except.map]

theorem parseVal_arr (fuel : Nat) (cs : List Char) :
    parseVal (fuel + 1) ('[' :: cs) = (parseElems fuel cs).map (fun r => (.arr r.1, r.2)) := by
  simp only [parseVal]
  simp [isDigitChar, Char.reduceEq]

theorem parseVal_obj (fuel : Nat) (cs : List Char) :
    parseVal (fuel + 1) ('{' :: cs) = (parseFlds fuel cs).map (fun r => (.obj r.1, r.2)) := by
  simp only [parseVal]
  simp [isDigitChar, Char.reduceEq]

theorem parseElems_close (fuel : Nat) (cs : List Char) :
    parseElems (fuel + 1) (']' :: cs) = .ok ([], cs) := by
  simp only [parseElems]
  simp [Char.reduceEq]

theorem parseElems_cons (fuel : Nat) (c : Char) (cs : List Char) (h : ¬c = ']') :
    parseElems (fuel + 1) (c :: cs) =
      (match parseVal fuel (c :: cs) with
      | .error exc => .error exc
      | .ok (v, r) =>
        match r with
        | ',' :: r2 =>
          match parseElems fuel r2 with
          | .error exc => .error exc
          | .ok (l, r3) => .ok (v :: l, r3)
        | ']' :: r2 => .ok ([v], r2)
        | _ => .error ()) := by
  simp only [parseElems]
  rw [if_neg h]

theorem parseFlds_close (fuel : Nat) (cs : List Char) :
    parseFlds (fuel + 1) ('}' :: cs) = .ok ([], cs) := by
  simp only [parseFlds]
  simp [Char.reduceEq]

theorem parseFlds_key (fuel : Nat) (cs : List Char) :
    parseFlds (fuel + 1) ('"' :: cs) =
      (match parseStrBody [] cs with
      | .error exc => .error exc
      | .ok (k, r1) =>
        match r1 with
        | ':' :: r2 =>
          match parseVal fuel r2 with
          | .error exc => .error exc
          | .ok (v, r3) =>
            match r3 with
            | ',' :: r4 =>
              match parseFlds fuel r4 with
              | .error exc => .error exc
              | .ok (l, r5) => .ok ((k, v) :: l, r5)
            | '}' :: r4 => .ok ([(k, v)], r4)
            | _ => .error ()
        | _ => .error ()) := by
  simp only [parseFlds]
  simp [Char.reduceEq]

theorem printFields_cons (k : String) (v : JSVal) (ps : List (String × JSVal))
    (hv : wfVal v = true) :
    printFields ((k, v) :: ps) = printStringLit k ++ ':' :: printVal v ++
      (if hasDefinedField ps then ',' :: printFields ps else printFields ps) := by
  cases v with
  | undefined => simp [wfVal] at hv
  | null => rfl
  | bool b => rfl
  | num n => rfl
  | str s => rfl
  | arr l => rfl
  | obj l => rfl

theorem hasDefinedField_wf (ps : List (String × JSVal)) (h : wfFields ps = true) :
    hasDefinedField ps = !ps.isEmpty := by
  cases ps with
  | nil => rfl
  | cons p ps =>
    obtain ⟨k, v⟩ := p
    simp only [wfFields, Bool.and_eq_true] at h
    cases v with
    | undefined => simp [wfVal] at h
    | null => rfl
    | bool b => rfl
    | num n => rfl
    | str s => rfl
    | arr l => rfl
    | obj l => rfl

theorem printFields_single (k : String) (v : JSVal) (hv : wfVal v = true) :
    printFields [(k, v)] = printStringLit k ++ ':' :: printVal v := by
  rw [printFields_cons k v [] hv]
  simp [hasDefinedField, printFields]

theorem printFields_cons2 (k : String) (v : JSVal) (ps : List (String × JSVal))
    (hv : wfVal v = true) (hd : hasDefinedField ps = true) :
    printFields ((k, v) :: ps) =
      printStringLit k ++ ':' :: printVal v ++ ',' :: printFields ps := by
  rw [printFields_cons k v ps hv, hd]
  simp

theorem parse_print_mutual (fuel : Nat) :
    (∀ v rest, wfVal v = true → pcost v ≤ fuel → delimB rest = true →
      parseVal fuel (printVal v ++ rest) = .ok (v, rest)) ∧
    (∀ l rest, wfList l = true → ecost l ≤ fuel →
      parseElems fuel (printElems l ++ ']' :: rest) = .ok (l, rest)) ∧
    (∀ ps rest, wfFields ps = true → fcost ps ≤ fuel →
      parseFlds fuel (printFields ps ++ '}' :: rest) = .ok (ps, rest)) := by
  induction fuel with
  | zero =>
    refine ⟨?z1, ?z2, ?z3⟩
    · intro v _ _ hc _
      exact absurd hc (by have := pcost_pos v; omega)
    · intro l _ _ hc
      exact absurd hc (by have := ecost_pos l; omega)
    · intro ps _ _ hc
      exact absurd hc (by have := fcost_pos ps; omega)
  | succ fuel ih =>
    obtain ⟨ihv, ihe, ihf⟩ := ih
    refine ⟨?_, ?_, ?_⟩
    · intro v rest hwf hc hrest
      cases v with
      | undefined => simp [wfVal] at hwf
      | null => exact parseVal_null fuel rest
      | bool b =>
        cases b with
        | false => exact parseVal_false fuel rest
        | true => exact parseVal_true fuel rest
      | num n =>
        simp only [printVal]
        exact parseVal_num fuel n rest hrest
      | str s =>
        simp only [printVal]
        exact parseVal_str fuel s rest
      | arr l =>
        simp only [printVal, List.cons_append, List.append_assoc, List.nil_append]
        rw [parseVal_arr fuel]
        rw [ihe l rest (by simpa [wfVal] using hwf) (by simp only [pcost] at hc; omega)]
        rfl
      | obj l =>
        simp only [printVal, List.cons_append, List.append_assoc, List.nil_append]
        rw [parseVal_obj fuel]
        rw [ihf l rest (by simpa [wfVal] using hwf) (by simp only [pcost] at hc; omega)]
        rfl
    · intro l rest hwf hc
      cases l with
      | nil =>
        simp only [printElems, List.nil_append]
        exact parseElems_close fuel rest
      | cons v vs =>
        have hwf2 : wfVal v = true ∧ wfList vs = true := by
          simpa [wfList, Bool.and_eq_true] using hwf
        obtain ⟨c, t, hct, hcOK⟩ := printVal_cons v
        cases vs with
        | nil =>
          simp only [printElems]
          rw [hct, List.cons_append, parseElems_cons fuel c _ (headOK_ne_rsq c hcOK),
            ← List.cons_append, ← hct]
          rw [ihv v (']' :: rest) hwf2.1
            (by simp only [ecost] at hc; omega) (by rfl)]
          rfl
        | cons v2 vs2 =>
          simp only [printElems, List.append_assoc, List.cons_append]
          rw [hct, List.cons_append, parseElems_cons fuel c _ (headOK_ne_rsq c hcOK),
            ← List.cons_append, ← hct]
          rw [ihv v (',' :: (printElems (v2 :: vs2) ++ ']' :: rest)) hwf2.1
            (by simp only [ecost] at hc; omega) (by rfl)]
          simp only []
          rw [ihe (v2 :: vs2) rest hwf2.2 (by simp only [ecost] at hc ⊢; omega)]
    · intro ps rest hwf hc
      cases ps with
      | nil =>
        simp only [printFields, List.nil_append]
        exact parseFlds_close fuel rest
      | cons p ps2 =>
        obtain ⟨k, v⟩ := p
        have hwf2 : wfVal v = true ∧ wfFields ps2 = true := by
          simpa [wfFields, Bool.and_eq_true] using hwf
        cases ps2 with
        | nil =>
          rw [printFields_single k v hwf2.1]
          simp only [printStringLit, List.cons_append, List.append_assoc, List.nil_append]
          rw [parseFlds_key fuel]
          rw [parseStrBody_escape k.data [] (':' :: (printVal v ++ '}' :: rest))]
          simp only [List.reverse_nil, List.nil_append, stringMk_data]
          rw [ihv v ('}' :: rest) hwf2.1 (by simp only [fcost] at hc; omega) (by rfl)]
          rfl
        | cons p2 ps3 =>
          rw [printFields_cons2 k v (p2 :: ps3) hwf2.1
            (by rw [hasDefinedField_wf _ hwf2.2]; rfl)]
          simp only [printStringLit, List.cons_append, List.append_assoc, List.nil_append]
          rw [parseFlds_key fuel]
          rw [parseStrBody_escape k.data []
            (':' :: (printVal v ++ ',' :: (printFields (p2 :: ps3) ++ '}' :: rest)))]
          simp only [List.reverse_nil, List.nil_append, stringMk_data]
          rw [ihv v (',' :: (printFields (p2 :: ps3) ++ '}' :: rest)) hwf2.1
            (by simp only [fcost] at hc; omega) (by rfl)]
          simp only []
          rw [ihf (p2 :: ps3) rest hwf2.2 (by simp only [fcost] at hc ⊢; omega)]

theorem cost_le_print (n : Nat) :
    (∀ v, pcost v ≤ n → wfVal v = true → pcost v ≤ 2 * (printVal v).length) ∧
    (∀ l, ecost l ≤ n → wfList l = true → ecost l ≤ 2 * (printElems l).length + 2) ∧
    (∀ ps, fcost ps ≤ n → wfFields ps = true → fcost ps ≤ 2 * (printFields ps).length + 2) := by
  induction n with
  | zero =>
    refine ⟨?y1, ?y2, ?y3⟩
    · intro v hc _
      exact absurd hc (by have := pcost_pos v; omega)
    · intro l hc _
      exact absurd hc (by have := ecost_pos l; omega)
    · intro ps hc _
      exact absurd hc (by have := fcost_pos ps; omega)
  | succ n ih =>
    obtain ⟨ihv, ihe, ihf⟩ := ih
    refine ⟨?_, ?_, ?_⟩
    · intro v hc hwf
      cases v with
      | undefined => simp [wfVal] at hwf
      | null => decide
      | bool b => cases b <;> decide
      | num m =>
        have := printVal_length_pos (.num m)
        simp only [pcost]
        omega
      | str s =>
        have := printVal_length_pos (.str s)
        simp only [pcost]
        omega
      | arr l =>
        simp only [pcost, printVal, List.length_cons, List.length_append,
          List.length_singleton]
        have hl := ihe l (by simp only [pcost] at hc; omega) (by simpa [wfVal] using hwf)
        omega
      | obj l =>
        simp only [pcost, printVal, List.length_cons, List.length_append,
          List.length_singleton]
        have hl := ihf l (by simp only [pcost] at hc; omega) (by simpa [wfVal] using hwf)
        omega
    · intro l hc hwf
      cases l with
      | nil => simp [ecost, printElems]
      | cons v vs =>
        have hwf2 : wfVal v = true ∧ wfList vs = true := by
          simpa [wfList, Bool.and_eq_true] using hwf
        have hv := ihv v (by simp only [ecost] at hc; omega) hwf2.1
        cases vs with
        | nil =>
          simp only [ecost, printElems]
          simp only [ecost] at *
          omega
        | cons v2 vs2 =>
          have hvs := ihe (v2 :: vs2) (by simp only [ecost] at hc ⊢; omega) hwf2.2
          simp only [ecost, printElems, List.length_append, List.length_cons] at *
          omega
    · intro ps hc hwf
      cases ps with
      | nil => simp [fcost, printFields]
      | cons p ps2 =>
        obtain ⟨k, v⟩ := p
        have hwf2 : wfVal v = true ∧ wfFields ps2 = true := by
          simpa [wfFields, Bool.and_eq_true] using hwf
        have hv := ihv v (by simp only [fcost] at hc; omega) hwf2.1
        cases ps2 with
        | nil =>
          rw [printFields_single k v hwf2.1]
          simp only [fcost, printStringLit, List.length_append, List.length_cons] at *
          omega
        | cons p2 ps3 =>
          have hps := ihf (p2 :: ps3) (by simp only [fcost] at hc ⊢; omega) hwf2.2
          rw [printFields_cons2 k v (p2 :: ps3) hwf2.1
            (by rw [hasDefinedField_wf _ hwf2.2]; rfl)]
          simp only [fcost, printStringLit, List.length_append, List.length_cons] at *
          omega

/-- Round trip: the model `JSON.parse` inverts the printer on wellformed
values. -/
theorem jsonParse_printVal (v : JSVal) (h : wfVal v = true) :
    jsonParse ⟨printVal v⟩ = .ok v := by
  unfold jsonParse
  have hb := (cost_le_print (pcost v)).1 v le_rfl h
  have hp := (parse_print_mutual (2 * (printVal v).length + 2)).1 v [] h (by omega) rfl
  rw [List.append_nil] at hp
  have hdata : (⟨printVal v⟩ : String).data = printVal v := rfl
  rw [hdata, hp]

theorem jsonStringify_wf (v : JSVal) (h : wfVal v = true) :
    jsonStringify v = some ⟨printVal v⟩ := by
  cases v with
  | undefined => simp [wfVal] at h
  | null => rfl
  | bool b => rfl
  | num n => rfl
  | str s => rfl
  | arr l => rfl
  | obj l => rfl

/-- Model of JavaScript `parseInt` applied to a job field: parse an optional
sign and the leading digits of the string coercion; `none` models `NaN`. -/
def jsParseInt (v : JSVal) : Option Int :=
  match parseIntChars (jsToPrimString v) with
  | .ok r => some r.1
  | .error _ => none

structure BackoffPolicy where
  type : String
  delay : Int
deriving DecidableEq

/-- A backoff option as supplied by callers: numeric shorthand or an explicit
policy. -/
inductive BackoffInput where
  | num (n : Int)
  | policy (p : BackoffPolicy)
deriving DecidableEq

/-- The recognized keys of `JobsOpts` after construction (`attempts` and
`delay` always present thanks to the constructor's defaults). -/
structure JobsOpts where
  attempts : Int
  delay : Int
  backoff : Option BackoffPolicy
  removeOnComplete : Option Bool
  removeOnFail : Option Bool
  stackTraceLimit : Option Nat
  timestamp : Option Int
deriving DecidableEq

/-- Caller-supplied options: every key optional. -/
structure PartialOpts where
  attempts : Option Int := none
  delay : Option Int := none
  backoff : Option BackoffInput := none
  removeOnComplete : Option Bool := none
  removeOnFail : Option Bool := none
  stackTraceLimit : Option Nat := none
  timestamp : Option Int := none
deriving DecidableEq

/-- Modelled from the spec: `Backoffs.normalize` (the `backoffs` module is not
among the examined sources) resolves a shorthand numeric backoff into an
explicit `{type := "fixed", delay}` policy and keeps an explicit policy as is;
an absent backoff stays absent. -/
def Backoffs.normalize : Option BackoffInput → Option BackoffPolicy
  | none => none
  | some (.num n) => some { type := "fixed", delay := n }
  | some (.policy p) => some p

structure ErrorInfo where
  message : String
  stack : String
deriving DecidableEq

/-- Modelled from the spec: `Backoffs.calculate` — `fixed` yields the policy
delay; `exponential` yields `delay * 2^(attemptsMade-1)`; any other type is
looked up among the worker's registered custom strategies, and an
unregistered type yields the STOP sentinel `-1`; with no backoff policy no
delay is produced (the caller then retries immediately). -/
def Backoffs.calculate (backoff : Option BackoffPolicy) (attemptsMade : Int)
    (strategies : String → Option (Int → ErrorInfo → Int)) (err : ErrorInfo) : Option Int :=
  match backoff with
  | none => none
  | some p =>
    if p.type = "fixed" then some p.delay
    else if p.type = "exponential" then some (p.delay * 2 ^ (attemptsMade - 1).toNat)
    else
      match strategies p.type with
      | some f => some (f attemptsMade err)
      | none => some (-1)

def backoffToJSVal (p : BackoffPolicy) : JSVal :=
  .obj [("type", .str p.type), ("delay", .num p.delay)]

def optField (k : String) (v : Option JSVal) : List (String × JSVal) :=
  match v with
  | some x => [(k, x)]
  | none => []

/-- JSON image of a constructed job's `opts` object (fields holding
`undefined` are omitted, as `JSON.stringify` does). -/
def optsToJSVal (o : JobsOpts) : JSVal :=
  .obj ([("attempts", .num o.attempts), ("delay", .num o.delay)] ++
    optField "backoff" (o.backoff.map backoffToJSVal) ++
    optField "removeOnComplete" (o.removeOnComplete.map .bool) ++
    optField "removeOnFail" (o.removeOnFail.map .bool) ++
    optField "stackTraceLimit" (o.stackTraceLimit.map (fun n => .num (n : Int))) ++
    optField "timestamp" (o.timestamp.map .num))

def lookupField (l : List (String × JSVal)) (k : String) : Option JSVal :=
  (l.find? (fun p => p.1 == k)).map (fun p => p.2)

def asInt : Option JSVal → Option Int
  | some (.num n) => some n
  | _ => none

def asNat : Option JSVal → Option Nat
  | some (.num n) => some n.toNat
  | _ => none

def asBool : Option JSVal → Option Bool
  | some (.bool b) => some b
  | _ => none

def asBackoffInput : Option JSVal → Option BackoffInput
  | some (.num n) => some (.num n)
  | some (.obj l) =>
    some (.policy
      { type := match lookupField l "type" with | some (.str t) => t | _ => "",
        delay := (asInt (lookupField l "delay")).getD 0 })
  | _ => none

/-- Reading the recognized option keys out of a parsed JS object (non-objects
contribute no options). -/
def jsValToPartialOpts : JSVal → PartialOpts
  | .obj l =>
    { attempts := asInt (lookupField l "attempts"),
      delay := asInt (lookupField l "delay"),
      backoff := asBackoffInput (lookupField l "backoff"),
      removeOnComplete := asBool (lookupField l "removeOnComplete"),
      removeOnFail := asBool (lookupField l "removeOnFail"),
      stackTraceLimit := asNat (lookupField l "stackTraceLimit"),
      timestamp := asInt (lookupField l "timestamp") }
  | _ => {}

/-- The in-memory `Job`.  `discarded` is `false` until `discard()` is called;
`stacktrace` starts as `null` (`none`). -/
structure Job where
  id : JSVal
  name : JSVal
  data : JSVal
  opts : JobsOpts
  progress : JSVal
  returnvalue : JSVal
  stacktrace : Option (List JSVal)
  timestamp : Int
  attemptsMade : Int
  failedReason : JSVal
  finishedOn : Option Int
  processedOn : Option Int
  discarded : Bool

/-- The serialized wire form (the `JobJson` interface, and equally an
`hgetall` field mapping): each field is a JS value, `undefined` encoding an
absent field. -/
structure WireRecord where
  id : JSVal := .undefined
  name : JSVal := .undefined
  data : JSVal := .undefined
  opts : JSVal := .undefined
  progress : JSVal := .undefined
  attemptsMade : JSVal := .undefined
  finishedOn : JSVal := .undefined
  processedOn : JSVal := .undefined
  timestamp : JSVal := .undefined
  failedReason : JSVal := .undefined
  stacktrace : JSVal := .undefined
  returnvalue : JSVal := .undefined

/-- The `Job` constructor: merge the defaults `attempts = 0, delay = 0` under
the supplied options, normalize the backoff policy, and stamp `timestamp`
from `opts.timestamp` when truthy, else from the current time `now`
(`Date.now()`). -/
def Job.build (name data : JSVal) (popts : PartialOpts) (now : Int) : Job :=
  { id := .undefined,
    name := name,
    data := data,
    opts :=
      { attempts := popts.attempts.getD 0,
        delay := popts.delay.getD 0,
        backoff := Backoffs.normalize popts.backoff,
        removeOnComplete := popts.removeOnComplete,
        removeOnFail := popts.removeOnFail,
        stackTraceLimit := popts.stackTraceLimit,
        timestamp := popts.timestamp },
    progress := .num 0,
    returnvalue := .null,
    stacktrace := none,
    timestamp := match popts.timestamp with
      | some t => if t = 0 then now else t
      | none => now,
    attemptsMade := 0,
    failedReason := .undefined,
    finishedOn := none,
    processedOn := none,
    discarded := false }

def optNumVal : Option Int → JSVal
  | some n => .num n
  | none => .undefined

def optStrVal : Option String → JSVal
  | some s => .str s
  | none => .undefined

/-- The JS value held by the `stacktrace` job field (`null` before the first
recorded failure, an array afterwards). -/
def stacktraceVal : Option (List JSVal) → JSVal
  | none => .null
  | some l => .arr l

/-- Model of `Job.prototype.toJSON`: project every field into the flat wire mapping,
JSON-encoding `data` (with the `|| {}` fallback), `opts`, `failedReason`,
`stacktrace` and `returnvalue`; `progress` is passed through raw. -/
def Job.toJSON (j : Job) : WireRecord :=
  { id := j.id,
    name := j.name,
    data := .str ⟨printVal (jsOr j.data (.obj []))⟩,
    opts := .str ⟨printVal (optsToJSVal j.opts)⟩,
    progress := j.progress,
    attemptsMade := .num j.attemptsMade,
    finishedOn := optNumVal j.finishedOn,
    processedOn := optNumVal j.processedOn,
    timestamp := .num j.timestamp,
    failedReason := optStrVal (jsonStringify j.failedReason),
    stacktrace := optStrVal (jsonStringify (stacktraceVal j.stacktrace)),
    returnvalue := optStrVal (jsonStringify j.returnvalue) }

/-- Model of `getTraces`: JSON-parse the persisted stacktrace field (after JS string
coercion, as `JSON.parse` receives an arbitrary value); a parse failure or a
non-array result yields the empty list instead of throwing. -/
def getTraces (stacktrace : JSVal) : List JSVal :=
  match jsonParse (jsCoerce stacktrace) with
  | .ok (.arr l) => l
  | _ => []

/-- Model of `getReturnValue`: JSON-parse the persisted return value; a parse failure
is logged and yields `undefined` instead of throwing. -/
def getReturnValue (value : String) : JSVal :=
  match jsonParse value with
  | .ok v => v
  | .error _ => .undefined

/-- Model of `Job.fromJSON`: rebuild a job from a wire mapping.  `JSON.parse` of the
`data`, `opts` and `progress` fields can throw (modelled by `Except`);
`stacktrace` and `returnvalue` are decoded defensively via `getTraces` /
`getReturnValue`.  `now` stands for `Date.now()` inside the constructor. -/
def Job.fromJSON (json : WireRecord) (jobId : String) (now : Int) : Except Unit Job :=
  match jsonParse (jsCoerce (jsOr json.data (.str "\x7b\x7d"))) with
  | .error exc => .error exc
  | .ok data =>
    match jsonParse (jsCoerce (jsOr json.opts (.str "\x7b\x7d"))) with
    | .error exc => .error exc
    | .ok optsVal =>
      let job := Job.build json.name data (jsValToPartialOpts optsVal) now
      match jsonParse (jsCoerce (jsOr json.progress (.num 0))) with
      | .error exc => .error exc
      | .ok progress =>
        .ok { job with
          id := jsOr json.id (.str jobId),
          progress := progress,
          finishedOn := if jsTruthy json.finishedOn then jsParseInt json.finishedOn else none,
          processedOn := if jsTruthy json.processedOn then jsParseInt json.processedOn else none,
          failedReason := json.failedReason,
          attemptsMade := (jsParseInt (jsOr json.attemptsMade (.num 0))).getD 0,
          stacktrace := some (getTraces json.stacktrace),
          returnvalue := match json.returnvalue with
            | .str s => getReturnValue s
            | _ => job.returnvalue }

def strField (m : List (String × String)) (k : String) : JSVal :=
  match m.find? (fun p => p.1 == k) with
  | some p => .str p.2
  | none => .undefined

/-- View of an `hgetall` result (flat string-to-string map) as a wire
record. -/
def wireOfStrMap (m : List (String × String)) : WireRecord :=
  { id := strField m "id", name := strField m "name", data := strField m "data",
    opts := strField m "opts", progress := strField m "progress",
    attemptsMade := strField m "attemptsMade", finishedOn := strField m "finishedOn",
    processedOn := strField m "processedOn", timestamp := strField m "timestamp",
    failedReason := strField m "failedReason", stacktrace := strField m "stacktrace",
    returnvalue := strField m "returnvalue" }

/-- Model of `Job.fromId`: `none` (JS `undefined`) for a falsy id, `none` (JS `null`)
when the fetched field mapping is empty (`isEmpty(jobData)`, modelled from
the spec as "no keys"), otherwise the deserialized record.  `store` stands
for the remote hash keyed by job id. -/
def Job.fromId (jobId : Option String) (store : String → List (String × String))
    (now : Int) : Except Unit (Option Job) :=
  match jobId with
  | none => .ok none
  | some s =>
    if s = "" then .ok none
    else
      let jobData := store s
      if jobData.isEmpty then .ok none
      else (Job.fromJSON (wireOfStrMap jobData) s now).map some

/-- The parameters persisted by `saveAttempt`'s `hmset`. -/
structure AttemptParams where
  attemptsMade : Int
  stacktrace : String
  failedReason : String
deriving DecidableEq

/-- A sub-operation added to the atomic `multi` batch by `moveToFailed`. -/
inductive SubOp where
  | hmset (params : AttemptParams)
  | moveToDelayed (timestamp : Int)
  | retryJob
  | moveToFinished (failedReason : String) (removeOnFail : Option Bool)
deriving DecidableEq

/-- JS truthiness of `opts.stackTraceLimit` (`undefined` and `0` falsy). -/
def truthyLimit : Option Nat → Bool
  | some (_ + 1) => true
  | _ => false

/-- Model of `Job.prototype.saveAttempt`: increment `attemptsMade`, default the
stacktrace to `[]`, truncate it to the first `stackTraceLimit - 1` entries
when the limit is truthy, build the persisted `hmset` params (stringifying
the truncated list), and only then push the new trace onto the in-memory
list. -/
def Job.saveAttempt (j : Job) (err : ErrorInfo) : Job × SubOp :=
  let attemptsMade := j.attemptsMade + 1
  let st0 := j.stacktrace.getD []
  let st1 := if truthyLimit j.opts.stackTraceLimit
    then st0.take (j.opts.stackTraceLimit.getD 0 - 1)
    else st0
  let params : AttemptParams :=
    { attemptsMade := attemptsMade,
      stacktrace := ⟨printVal (.arr st1)⟩,
      failedReason := err.message }
  let st2 := st1 ++ [.str err.stack]
  ({ j with attemptsMade := attemptsMade, stacktrace := some st2 }, .hmset params)

/-- Model of `Job.prototype.moveToFailed`, decision phase: set `failedReason`, record
the attempt into the batch, and select exactly one transition sub-operation —
backoff delay `-1` or exhausted attempts or a discarded job go to
`moveToFinished`; a truthy delay goes to `moveToDelayed(now + delay)`; 
otherwise `retryJob`.  Also yields the `command` name used for error
reporting. -/
def Job.moveToFailedBatch (strategies : String → Option (Int → ErrorInfo → Int))
    (now : Int) (j : Job) (err : ErrorInfo) : Job × List SubOp × String :=
  let j1 := { j with failedReason := .str err.message }
  let r := Job.saveAttempt j1 err
  let j2 := r.1
  if j2.attemptsMade < j2.opts.attempts ∧ j2.discarded = false then
    match Backoffs.calculate j2.opts.backoff j2.attemptsMade strategies err with
    | some d =>
      if d = -1 then
        (j2, [r.2, .moveToFinished err.message j2.opts.removeOnFail], "failed")
      else if d = 0 then (j2, [r.2, .retryJob], "retry")
      else (j2, [r.2, .moveToDelayed (now + d)], "delayed")
    | none => (j2, [r.2, .retryJob], "retry")
  else (j2, [r.2, .moveToFinished err.message j2.opts.removeOnFail], "failed")

/-- Modelled from the spec: `Scripts.finishedErrors` produces a typed error
identifying the result code, the job id and the attempted transition. -/
structure FinishedError where
  code : Int
  jobId : JSVal
  command : String

/-- Model of `Job.prototype.moveToFailed` completed against the executed batch's
result codes (`results[results.length - 1][1]`): a negative final code
raises the typed error, otherwise the call returns normally. -/
def Job.moveToFailed (strategies : String → Option (Int → ErrorInfo → Int)) (now : Int)
    (j : Job) (err : ErrorInfo) (results : List Int) :
    Except FinishedError (Job × List SubOp) :=
  let r := Job.moveToFailedBatch strategies now j err
  let code := (results.getLast?).getD 0
  if code < 0 then .error { code := code, jobId := r.1.id, command := r.2.2 }
  else .ok (r.1, r.2.1)

inductive JobState where
  | waiting
  | delayed
  | failed
deriving DecidableEq

/-- Lifecycle state the atomic engine moves the job to when executing the
transition sub-operation selected by `moveToFailedBatch` (`retryJob` returns
the job to the waiting list). -/
def commandState : String → JobState
  | "delayed" => .delayed
  | "retry" => .waiting
  | _ => .failed

def retryable : JobState → Bool
  | .waiting => true
  | .delayed => true
  | .failed => false

/-- One `moveToFailed` call together with the state transition its batch
produces. -/
def stepFail (strategies : String → Option (Int → ErrorInfo → Int)) (now : Int)
    (e : ErrorInfo) (js : Job × JobState) : Job × JobState :=
  let r := Job.moveToFailedBatch strategies now js.1 e
  (r.1, commandState r.2.2)

/-- A protocol-respecting sequence of `moveToFailed` calls: a further failure
is only recorded while the job is still in a retryable (non-terminal)
state. -/
def runFailProtocol (strategies : String → Option (Int → ErrorInfo → Int)) (now : Int) :
    List ErrorInfo → Job × JobState → Job × JobState
  | [], js => js
  | e :: es, js =>
    if retryable js.2 then runFailProtocol strategies now es (stepFail strategies now e js)
    else js

/-- Model of `Job.prototype.moveToCompleted`: the in-memory snapshot receives
`returnValue || 0`, while the stringified original argument is what is sent
to the atomic `moveToCompleted` operation.  (`JSON.stringify` cannot throw on
the modelled value space, so the `tryCatch` guard never fires.) -/
def Job.moveToCompleted (j : Job) (returnValue : JSVal) : Job × Option String :=
  ({ j with returnvalue := jsOr returnValue (.num 0) }, jsonStringify returnValue)

/-- Outcome of a `waitUntilFinished` call. -/
inductive WaitOutcome where
  | subscribed
  | resolved (v : JSVal)
  | rejected (reason : JSVal)
  | fetchFailed

/-- Model of `Job.prototype.waitUntilFinished`, polling phase: `Scripts.isFinished`
yields a status (`2` = failed, any other positive = completed, else not
finished).  An already-finished job is re-fetched via `fromId` and the wait
resolves with the persisted `returnvalue` or rejects with the persisted
`failedReason`, without subscribing; only a not-finished status subscribes to
the per-job completion/failure events. -/
def Job.waitUntilFinished (store : String → List (String × String)) (now : Int)
    (jobId : String) (status : Int) : WaitOutcome :=
  if 0 < status then
    match Job.fromId (some jobId) store now with
    | .error _ => .fetchFailed
    | .ok none => .fetchFailed
    | .ok (some jb) =>
      if status = 2 then .rejected jb.failedReason else .resolved jb.returnvalue
  else .subscribed

theorem jsOr_of_truthy (a b : JSVal) (h : jsTruthy a = true) : jsOr a b = a := by
  simp only [jsTruthy, Bool.not_eq_true'] at h
  simp [jsOr, h]

theorem jsFalsy_str_cons (c : Char) (t : List Char) : jsFalsy (.str ⟨c :: t⟩) = false := by
  simp only [jsFalsy, beq_eq_false_iff_ne, ne_eq]
  intro h
  have := congrArg String.data h
  simp at this

/-- Computation rule for `Job.fromJSON` when the three JSON-parsed fields
succeed. -/
theorem Job.fromJSON_eq (json : WireRecord) (jobId : String) (now : Int)
    (data optsVal progress : JSVal)
    (hd : jsonParse (jsCoerce (jsOr json.data (.str "\x7b\x7d"))) = .ok data)
    (ho : jsonParse (jsCoerce (jsOr json.opts (.str "\x7b\x7d"))) = .ok optsVal)
    (hp : jsonParse (jsCoerce (jsOr json.progress (.num 0))) = .ok progress) :
    Job.fromJSON json jobId now =
      .ok { Job.build json.name data (jsValToPartialOpts optsVal) now with
        id := jsOr json.id (.str jobId),
        progress := progress,
        finishedOn := if jsTruthy json.finishedOn then jsParseInt json.finishedOn else none,
        processedOn := if jsTruthy json.processedOn then jsParseInt json.processedOn else none,
        failedReason := json.failedReason,
        attemptsMade := (jsParseInt (jsOr json.attemptsMade (.num 0))).getD 0,
        stacktrace := some (getTraces json.stacktrace),
        returnvalue := match json.returnvalue with
          | .str s => getReturnValue s
          | _ => (Job.build json.name data (jsValToPartialOpts optsVal) now).returnvalue } := by
  unfold Job.fromJSON
  rw [hd, ho, hp]

/-- The caller options carrying exactly the information of a constructed
options object. -/
def fullPartialOf (o : JobsOpts) : PartialOpts :=
  { attempts := some o.attempts, delay := some o.delay,
    backoff := o.backoff.map .policy,
    removeOnComplete := o.removeOnComplete, removeOnFail := o.removeOnFail,
    stackTraceLimit := o.stackTraceLimit, timestamp := o.timestamp }

theorem wfVal_optsToJSVal (o : JobsOpts) : wfVal (optsToJSVal o) = true := by
  obtain ⟨a, d, b, rc, rf, stl, ts⟩ := o
  cases b <;> cases rc <;> cases rf <;> cases stl <;> cases ts <;>
    simp [optsToJSVal, optField, wfVal, wfFields, backoffToJSVal]

theorem jsValToPartialOpts_optsToJSVal (o : JobsOpts) :
    jsValToPartialOpts (optsToJSVal o) = fullPartialOf o := by
  obtain ⟨a, d, b, rc, rf, stl, ts⟩ := o
  cases b <;> cases rc <;> cases rf <;> cases stl <;> cases ts <;>
    simp [optsToJSVal, optField, jsValToPartialOpts, lookupField, asInt, asNat, asBool,
      asBackoffInput, backoffToJSVal, fullPartialOf, List.find?, Int.toNat_natCast]

theorem build_opts (nm dt : JSVal) (o : JobsOpts) (now : Int) :
    (Job.build nm dt (fullPartialOf o) now).opts = o := by
  obtain ⟨a, d, b, rc, rf, stl, ts⟩ := o
  cases b <;> simp [Job.build, fullPartialOf, Backoffs.normalize]

theorem toJSON_data_parse (j : Job) (ht : jsTruthy j.data = true) (hw : wfVal j.data = true) :
    jsonParse (jsCoerce (jsOr (Job.toJSON j).data (.str "\x7b\x7d"))) = .ok j.data := by
  show jsonParse (jsCoerce (jsOr (.str ⟨printVal (jsOr j.data (.obj []))⟩) (.str "\x7b\x7d"))) = _
  rw [jsOr_of_truthy _ _ ht]
  obtain ⟨c, t, hct, _⟩ := printVal_cons j.data
  rw [hct]
  have hor : jsOr (.str ⟨c :: t⟩) (.str "\x7b\x7d") = .str ⟨c :: t⟩ := by
    simp [jsOr, jsFalsy_str_cons]
  rw [hor]
  show jsonParse ⟨c :: t⟩ = _
  rw [← hct]
  exact jsonParse_printVal j.data hw

theorem toJSON_opts_parse (j : Job) :
    jsonParse (jsCoerce (jsOr (Job.toJSON j).opts (.str "\x7b\x7d"))) =
      .ok (optsToJSVal j.opts) := by
  show jsonParse (jsCoerce (jsOr (.str ⟨printVal (optsToJSVal j.opts)⟩) (.str "\x7b\x7d"))) = _
  obtain ⟨c, t, hct, _⟩ := printVal_cons (optsToJSVal j.opts)
  rw [hct]
  have hor : jsOr (.str ⟨c :: t⟩) (.str "\x7b\x7d") = .str ⟨c :: t⟩ := by
    simp [jsOr, jsFalsy_str_cons]
  rw [hor]
  show jsonParse ⟨c :: t⟩ = _
  rw [← hct]
  exact jsonParse_printVal _ (wfVal_optsToJSVal j.opts)

theorem toJSON_progress_parse (j : Job) (n : Int) (hp : j.progress = .num n) :
    jsonParse (jsCoerce (jsOr (Job.toJSON j).progress (.num 0))) = .ok (.num n) := by
  show jsonParse (jsCoerce (jsOr j.progress (.num 0))) = _
  rw [hp]
  have hor : jsOr (JSVal.num n) (.num 0) = .num n := by
    by_cases hn : n = 0
    · subst hn; rfl
    · simp [jsOr, jsFalsy, hn]
  rw [hor]
  exact jsonParse_printVal (.num n) rfl

/-- C2 as amended: for a job whose `data` is truthy and `undefined`-free,
whose `progress` is a number, whose `stacktrace` is a (non-null)
`undefined`-free list, and whose `returnvalue` is `undefined`-free,
deserializing the serialized wire form reproduces `data`, `opts`,
`progress`, `stacktrace` and `returnvalue`. -/
theorem C2_amended (j : Job) (n : Int) (l : List JSVal) (jobId : String) (now : Int)
    (hdt : jsTruthy j.data = true) (hdw : wfVal j.data = true)
    (hp : j.progress = .num n)
    (hst : j.stacktrace = some l) (hlw : wfList l = true)
    (hrw : wfVal j.returnvalue = true) :
    ∃ j2, Job.fromJSON (Job.toJSON j) jobId now = .ok j2 ∧
      j2.data = j.data ∧ j2.opts = j.opts ∧ j2.progress = j.progress ∧
      j2.stacktrace = j.stacktrace ∧ j2.returnvalue = j.returnvalue := by
  have hd := toJSON_data_parse j hdt hdw
  have ho := toJSON_opts_parse j
  have hpp := toJSON_progress_parse j n hp
  refine ⟨_, Job.fromJSON_eq (Job.toJSON j) jobId now j.data (optsToJSVal j.opts) (.num n)
    hd ho hpp, ?gd, ?go, ?gp, ?gs, ?gr⟩
  · show (Job.build (Job.toJSON j).name j.data
      (jsValToPartialOpts (optsToJSVal j.opts)) now).data = j.data
    rfl
  · show (Job.build (Job.toJSON j).name j.data
      (jsValToPartialOpts (optsToJSVal j.opts)) now).opts = j.opts
    rw [jsValToPartialOpts_optsToJSVal]
    exact build_opts _ _ _ _
  · exact hp.symm
  · show some (getTraces (Job.toJSON j).stacktrace) = j.stacktrace
    have hwire : (Job.toJSON j).stacktrace = .str ⟨printVal (.arr l)⟩ := by
      show optStrVal (jsonStringify (stacktraceVal j.stacktrace)) = _
      rw [hst]
      rfl
    rw [hwire, hst]
    show some (match jsonParse (jsCoerce (.str ⟨printVal (.arr l)⟩)) with
      | .ok (.arr l) => l
      | _ => []) = some l
    show some (match jsonParse ⟨printVal (.arr l)⟩ with
      | .ok (.arr l) => l
      | _ => []) = some l
    rw [jsonParse_printVal (.arr l) (by simpa [wfVal] using hlw)]
  · show (match (Job.toJSON j).returnvalue with
      | .str s => getReturnValue s
      | _ => (Job.build (Job.toJSON j).name j.data (jsValToPartialOpts (optsToJSVal j.opts))
          now).returnvalue) = j.returnvalue
    have hwire : (Job.toJSON j).returnvalue = .str ⟨printVal j.returnvalue⟩ := by
      show optStrVal (jsonStringify j.returnvalue) = _
      rw [jsonStringify_wf _ hrw]
      rfl
    rw [hwire]
    show getReturnValue ⟨printVal j.returnvalue⟩ = j.returnvalue
    unfold getReturnValue
    rw [jsonParse_printVal _ hrw]

/-- Normal form of `moveToFailedBatch`: the recorded-attempt job and sub-op
expressed directly over the original job's fields. -/
theorem moveToFailedBatch_eq (strategies : String → Option (Int → ErrorInfo → Int))
    (now : Int) (j : Job) (err : ErrorInfo) :
    Job.moveToFailedBatch strategies now j err =
      (let j2 := (Job.saveAttempt { j with failedReason := .str err.message } err).1
       let att := (Job.saveAttempt { j with failedReason := .str err.message } err).2
       if j.attemptsMade + 1 < j.opts.attempts ∧ j.discarded = false then
         match Backoffs.calculate j.opts.backoff (j.attemptsMade + 1) strategies err with
         | some d =>
           if d = -1 then (j2, [att, .moveToFinished err.message j.opts.removeOnFail], "failed")
           else if d = 0 then (j2, [att, .retryJob], "retry")
           else (j2, [att, .moveToDelayed (now + d)], "delayed")
         | none => (j2, [att, .retryJob], "retry")
       else (j2, [att, .moveToFinished err.message j.opts.removeOnFail], "failed")) := rfl

theorem moveToFailedBatch_fst (strategies : String → Option (Int → ErrorInfo → Int))
    (now : Int) (j : Job) (err : ErrorInfo) :
    (Job.moveToFailedBatch strategies now j err).1 =
      (Job.saveAttempt { j with failedReason := .str err.message } err).1 := by
  rw [moveToFailedBatch_eq]
  split
  · split
    · split
      · rfl
      · split
        · rfl
        · rfl
    · rfl
  · rfl

theorem moveToFailedBatch_cmd (strategies : String → Option (Int → ErrorInfo → Int))
    (now : Int) (j : Job) (err : ErrorInfo) :
    (Job.moveToFailedBatch strategies now j err).2.2 = "delayed" ∨
    (Job.moveToFailedBatch strategies now j err).2.2 = "retry" ∨
    (Job.moveToFailedBatch strategies now j err).2.2 = "failed" := by
  rw [moveToFailedBatch_eq]
  split
  · split
    · split
      · simp
      · split
        · simp
        · simp
    · simp
  · simp

theorem saveAttempt_opts (j : Job) (e : ErrorInfo) :
    (Job.saveAttempt j e).1.opts = j.opts := rfl

theorem saveAttempt_attemptsMade (j : Job) (e : ErrorInfo) :
    (Job.saveAttempt j e).1.attemptsMade = j.attemptsMade + 1 := rfl

theorem saveAttempt_discarded (j : Job) (e : ErrorInfo) :
    (Job.saveAttempt j e).1.discarded = j.discarded := rfl

theorem stepFail_opts (strategies : String → Option (Int → ErrorInfo → Int)) (now : Int)
    (e : ErrorInfo) (js : Job × JobState) :
    (stepFail strategies now e js).1.opts = js.1.opts := by
  show (Job.moveToFailedBatch strategies now js.1 e).1.opts = js.1.opts
  rw [moveToFailedBatch_fst]
  rfl

theorem stepFail_attemptsMade (strategies : String → Option (Int → ErrorInfo → Int))
    (now : Int) (e : ErrorInfo) (js : Job × JobState) :
    (stepFail strategies now e js).1.attemptsMade = js.1.attemptsMade + 1 := by
  show (Job.moveToFailedBatch strategies now js.1 e).1.attemptsMade = js.1.attemptsMade + 1
  rw [moveToFailedBatch_fst]
  rfl

theorem stepFail_discarded (strategies : String → Option (Int → ErrorInfo → Int))
    (now : Int) (e : ErrorInfo) (js : Job × JobState) :
    (stepFail strategies now e js).1.discarded = js.1.discarded := by
  show (Job.moveToFailedBatch strategies now js.1 e).1.discarded = js.1.discarded
  rw [moveToFailedBatch_fst]
  rfl

/-- A step whose result is still retryable must have passed the
attempts-and-not-discarded check. -/
theorem stepFail_retryable_cond (strategies : String → Option (Int → ErrorInfo → Int))
    (now : Int) (e : ErrorInfo) (js : Job × JobState)
    (h : retryable (stepFail strategies now e js).2 = true) :
    js.1.attemptsMade + 1 < js.1.opts.attempts ∧ js.1.discarded = false := by
  by_contra hc
  have hcmd : (Job.moveToFailedBatch strategies now js.1 e).2.2 = "failed" := by
    rw [moveToFailedBatch_eq]
    rw [if_neg hc]
  have : (stepFail strategies now e js).2 = .failed := by
    show commandState (Job.moveToFailedBatch strategies now js.1 e).2.2 = .failed
    rw [hcmd]
    rfl
  rw [this] at h
  simp [retryable] at h

/-- A step that passes the check and whose backoff is not the STOP sentinel
leaves the job retryable. -/
theorem stepFail_retryable (strategies : String → Option (Int → ErrorInfo → Int))
    (now : Int) (e : ErrorInfo) (js : Job × JobState)
    (hcond : js.1.attemptsMade + 1 < js.1.opts.attempts ∧ js.1.discarded = false)
    (hns : Backoffs.calculate js.1.opts.backoff (js.1.attemptsMade + 1) strategies e ≠
      some (-1)) :
    retryable (stepFail strategies now e js).2 = true := by
  show retryable (commandState (Job.moveToFailedBatch strategies now js.1 e).2.2) = true
  rw [moveToFailedBatch_eq]
  simp only [if_pos hcond]
  cases hcalc : Backoffs.calculate js.1.opts.backoff (js.1.attemptsMade + 1) strategies e with
  | none => rfl
  | some d =>
    have hd : ¬d = -1 := by
      intro h
      exact hns (by rw [hcalc, h])
    simp only [hd, if_false, reduceIte]
    by_cases h0 : d = 0
    · simp only [h0, reduceIte]
      rfl
    · simp only [h0, if_false, reduceIte]
      rfl

/-- A step that fails the check moves the job to `failed`. -/
theorem stepFail_terminal (strategies : String → Option (Int → ErrorInfo → Int))
    (now : Int) (e : ErrorInfo) (js : Job × JobState)
    (hc : ¬(js.1.attemptsMade + 1 < js.1.opts.attempts ∧ js.1.discarded = false)) :
    (stepFail strategies now e js).2 = .failed := by
  show commandState (Job.moveToFailedBatch strategies now js.1 e).2.2 = .failed
  have hcmd : (Job.moveToFailedBatch strategies now js.1 e).2.2 = "failed" := by
    rw [moveToFailedBatch_eq]
    rw [if_neg hc]
  rw [hcmd]
  rfl

/-- Protocol invariant: starting with `attemptsMade ≤ attempts` (strictly
below while retryable), `attemptsMade` never exceeds `opts.attempts`. -/
theorem runFailProtocol_bound (strategies : String → Option (Int → ErrorInfo → Int))
    (now : Int) (errs : List ErrorInfo) : ∀ (j : Job) (st : JobState),
    j.attemptsMade ≤ j.opts.attempts →
    (retryable st = true → j.attemptsMade < j.opts.attempts) →
    (runFailProtocol strategies now errs (j, st)).1.attemptsMade ≤
      (runFailProtocol strategies now errs (j, st)).1.opts.attempts := by
  induction errs with
  | nil =>
    intro j st h1 _
    exact h1
  | cons e es ih =>
    intro j st h1 h2
    show (runFailProtocol strategies now (e :: es) (j, st)).1.attemptsMade ≤ _
    rw [runFailProtocol]
    by_cases hr : retryable st = true
    · rw [if_pos hr]
      have h3 := h2 hr
      have ham : (stepFail strategies now e (j, st)).1.attemptsMade = j.attemptsMade + 1 :=
        stepFail_attemptsMade strategies now e (j, st)
      have hopts : (stepFail strategies now e (j, st)).1.opts = j.opts :=
        stepFail_opts strategies now e (j, st)
      have hind := ih (stepFail strategies now e (j, st)).1 (stepFail strategies now e (j, st)).2
        (by rw [ham, hopts]; omega)
        (fun hrr => by
          have hcond : j.attemptsMade + 1 < j.opts.attempts ∧ j.discarded = false :=
            stepFail_retryable_cond strategies now e (j, st) hrr
          rw [ham, hopts]
          exact hcond.1)
      exact hind
    · rw [if_neg hr]
      exact h1

/-- Protocol run with a never-STOP backoff, a non-discarded job and attempts
headroom: each call increments `attemptsMade` and the job stays retryable. -/
theorem runFailProtocol_retry (strategies : String → Option (Int → ErrorInfo → Int))
    (now : Int) : ∀ (errs : List ErrorInfo) (j : Job) (st : JobState),
    (∀ (n : Int) (e : ErrorInfo), Backoffs.calculate j.opts.backoff n strategies e ≠ some (-1)) →
    j.discarded = false →
    retryable st = true →
    j.attemptsMade + errs.length < j.opts.attempts →
    (runFailProtocol strategies now errs (j, st)).1.attemptsMade =
      j.attemptsMade + errs.length ∧
    retryable (runFailProtocol strategies now errs (j, st)).2 = true ∧
    (runFailProtocol strategies now errs (j, st)).1.opts = j.opts := by
  intro errs
  induction errs with
  | nil =>
    intro j st _ _ hr _
    exact ⟨by simp [runFailProtocol], by simpa [runFailProtocol] using hr, rfl⟩
  | cons e es ih =>
    intro j st hns hd hr hlt
    rw [runFailProtocol, if_pos hr]
    have ham : (stepFail strategies now e (j, st)).1.attemptsMade = j.attemptsMade + 1 :=
      stepFail_attemptsMade strategies now e (j, st)
    have hopts : (stepFail strategies now e (j, st)).1.opts = j.opts :=
      stepFail_opts strategies now e (j, st)
    have hdis : (stepFail strategies now e (j, st)).1.discarded = false := by
      have h := stepFail_discarded strategies now e (j, st)
      show (stepFail strategies now e (j, st)).1.discarded = false
      rw [h]
      exact hd
    have hlen : (0 : Int) ≤ (es.length : Int) := by positivity
    have hstep : j.attemptsMade + 1 < j.opts.attempts := by
      simp only [List.length_cons] at hlt
      push_cast at hlt
      omega
    have hretry : retryable (stepFail strategies now e (j, st)).2 = true :=
      stepFail_retryable strategies now e (j, st) ⟨hstep, hd⟩ (hns _ e)
    have hind := ih (stepFail strategies now e (j, st)).1 (stepFail strategies now e (j, st)).2
      (by intro n e2; rw [hopts]; exact hns n e2)
      hdis hretry
      (by rw [ham, hopts]; simp only [List.length_cons] at hlt; push_cast at hlt ⊢; omega)
    refine ⟨?_, hind.2.1, ?_⟩
    · rw [hind.1, ham]
      simp only [List.length_cons]
      push_cast
      ring
    · rw [hind.2.2, hopts]

theorem getTraces_print (l : List JSVal) (h : wfList l = true) :
    getTraces (.str ⟨printVal (.arr l)⟩) = l := by
  unfold getTraces
  show (match jsonParse ⟨printVal (.arr l)⟩ with
    | .ok (.arr l) => l
    | _ => []) = l
  rw [jsonParse_printVal (.arr l) (by simpa [wfVal] using h)]

def noStrategies : String → Option (Int → ErrorInfo → Int) := fun _ => none

/-- C1 (amended): each record-attempt increments `attemptsMade` and, with a
truthy `stackTraceLimit = L+1`, truncates the retained stacktrace to its
OLDEST `L` entries — dropping the newest beyond that, not the oldest — and
persists that truncated list WITHOUT the new trace (the new trace is pushed
onto the in-memory list only after the persisted params are built).
Consequently, with `stackTraceLimit = 3`, after 5 recorded failures the
persisted stacktrace holds exactly the 2 OLDEST traces (not the 3 most
recent), and the in-memory stacktrace holds those two plus the newest. -/
theorem C1_amended :
    (∀ (j : Job) (err : ErrorInfo) (L : Nat), j.opts.stackTraceLimit = some (L + 1) →
      (Job.saveAttempt j err).2 = .hmset
        { attemptsMade := j.attemptsMade + 1,
          stacktrace := ⟨printVal (.arr ((j.stacktrace.getD []).take L))⟩,
          failedReason := err.message } ∧
      (Job.saveAttempt j err).1.stacktrace =
        some ((j.stacktrace.getD []).take L ++ [.str err.stack]) ∧
      (Job.saveAttempt j err).1.attemptsMade = j.attemptsMade + 1) ∧
    (∀ e1 e2 e3 e4 e5 : ErrorInfo,
      (Job.moveToFailedBatch noStrategies 0
        (runFailProtocol noStrategies 0 [e1, e2, e3, e4]
          (Job.build (.str "j") (.obj []) { attempts := some 10, stackTraceLimit := some 3 } 0,
           .waiting)).1 e5).2.1.head? =
        some (.hmset
          { attemptsMade := 5,
            stacktrace := ⟨printVal (.arr [.str e1.stack, .str e2.stack])⟩,
            failedReason := e5.message }) ∧
      (Job.moveToFailedBatch noStrategies 0
        (runFailProtocol noStrategies 0 [e1, e2, e3, e4]
          (Job.build (.str "j") (.obj []) { attempts := some 10, stackTraceLimit := some 3 } 0,
           .waiting)).1 e5).1.stacktrace =
        some [.str e1.stack, .str e2.stack, .str e5.stack] ∧
      getTraces (.str ⟨printVal (.arr [.str e1.stack, .str e2.stack])⟩) =
        [.str e1.stack, .str e2.stack]) := by
  constructor
  · intro j err L hL
    unfold Job.saveAttempt
    rw [hL]
    refine ⟨?_, ?_, rfl⟩
    · show SubOp.hmset
        { attemptsMade := j.attemptsMade + 1,
          stacktrace := ⟨printVal (.arr (if truthyLimit (some (L + 1))
            then (j.stacktrace.getD []).take ((some (L + 1)).getD 0 - 1)
            else j.stacktrace.getD []))⟩,
          failedReason := err.message } = _
      simp [truthyLimit]
    · show some ((if truthyLimit (some (L + 1))
        then (j.stacktrace.getD []).take ((some (L + 1)).getD 0 - 1)
        else j.stacktrace.getD []) ++ [.str err.stack]) = _
      simp [truthyLimit]
  · intro e1 e2 e3 e4 e5
    exact ⟨rfl, rfl, getTraces_print [.str e1.stack, .str e2.stack] rfl⟩

/-- C1 counterexample: with `stackTraceLimit = 3`, after 5 recorded failures
the persisted stacktrace decodes to the 2 oldest traces `["s1", "s2"]`, not
to the 3 most recent ones, refuting the claimed cap behavior. -/
theorem C1_counterexample :
    (Job.moveToFailedBatch noStrategies 0
      (runFailProtocol noStrategies 0
        [⟨"m1", "s1"⟩, ⟨"m2", "s2"⟩, ⟨"m3", "s3"⟩, ⟨"m4", "s4"⟩]
        (Job.build (.str "j") (.obj []) { attempts := some 10, stackTraceLimit := some 3 } 0,
         .waiting)).1 ⟨"m5", "s5"⟩).2.1.head?.map
      (fun op => match op with
        | .hmset p => getTraces (.str p.stacktrace)
        | _ => []) = some [.str "s1", .str "s2"] ∧
    ¬[JSVal.str "s1", .str "s2"] = [.str "s3", .str "s4", .str "s5"] := by
  exact ⟨rfl, by simp⟩

theorem C1_witness :
    (Job.saveAttempt (Job.build (.str "j") (.obj [])
      { attempts := some 10, stackTraceLimit := some 3 } 0) ⟨"m", "s"⟩).2 =
    .hmset { attemptsMade := 1, stacktrace := "[]", failedReason := "m" } := by
  rw [(C1_amended.1 (Job.build (.str "j") (.obj [])
    { attempts := some 10, stackTraceLimit := some 3 } 0) ⟨"m", "s"⟩ 2 rfl).1]
  rfl

/-- C2 counterexample: a freshly constructed job has `stacktrace = null`
(`none`), but deserializing its serialized wire form yields `stacktrace = []`
(`some []`), so the round trip does not reproduce an identical `stacktrace`
field. -/
theorem C2_counterexample :
    (Job.fromJSON (Job.build (.str "a") (.obj []) {} 5).toJSON "1" 5).map Job.stacktrace =
      .ok (some []) ∧
    (Job.build (.str "a") (.obj []) {} 5).stacktrace = none ∧
    ¬(some ([] : List JSVal) = none) := by
  exact ⟨rfl, rfl, by simp⟩

theorem C2_witness :
    ∃ j2, Job.fromJSON (Job.toJSON
        { Job.build (.str "email") (.obj [("to", .str "a@b.com")]) { attempts := some 3 } 7 with
          progress := .num 2, stacktrace := some [.str "t1"], returnvalue := .str "ok" })
        "9" 7 = .ok j2 ∧
      j2.data = ({ Job.build (.str "email") (.obj [("to", .str "a@b.com")])
          { attempts := some 3 } 7 with
        progress := .num 2, stacktrace := some [.str "t1"], returnvalue := .str "ok" } : Job).data ∧
      j2.opts = ({ Job.build (.str "email") (.obj [("to", .str "a@b.com")])
          { attempts := some 3 } 7 with
        progress := .num 2, stacktrace := some [.str "t1"], returnvalue := .str "ok" } : Job).opts ∧
      j2.progress = ({ Job.build (.str "email") (.obj [("to", .str "a@b.com")])
          { attempts := some 3 } 7 with
        progress := .num 2, stacktrace := some [.str "t1"],
        returnvalue := .str "ok" } : Job).progress ∧
      j2.stacktrace = ({ Job.build (.str "email") (.obj [("to", .str "a@b.com")])
          { attempts := some 3 } 7 with
        progress := .num 2, stacktrace := some [.str "t1"],
        returnvalue := .str "ok" } : Job).stacktrace ∧
      j2.returnvalue = ({ Job.build (.str "email") (.obj [("to", .str "a@b.com")])
          { attempts := some 3 } 7 with
        progress := .num 2, stacktrace := some [.str "t1"],
        returnvalue := .str "ok" } : Job).returnvalue :=
  C2_amended
    { Job.build (.str "email") (.obj [("to", .str "a@b.com")]) { attempts := some 3 } 7 with
      progress := .num 2, stacktrace := some [.str "t1"], returnvalue := .str "ok" }
    2 [.str "t1"] "9" 7 rfl rfl rfl rfl rfl rfl

/-- C3: when, after the attempt is recorded, `attemptsMade < opts.attempts`
and the job is not discarded, the computed backoff delay dispatches the
single transition sub-operation added to the atomic batch — the STOP
sentinel `-1` selects the terminal `moveToFinished` (failed) sub-operation,
a positive delay selects `moveToDelayed` scheduled at `now + delay`, and a
zero delay selects the immediate `retryJob` sub-operation; in every other
case (attempts exhausted or discarded) the terminal failure sub-operation is
selected. -/
theorem C3_theorem (strategies : String → Option (Int → ErrorInfo → Int)) (now : Int)
    (j : Job) (err : ErrorInfo) :
    (j.attemptsMade + 1 < j.opts.attempts ∧ j.discarded = false →
      (Backoffs.calculate j.opts.backoff (j.attemptsMade + 1) strategies err = some (-1) →
        (Job.moveToFailedBatch strategies now j err).2.1 =
          [(Job.saveAttempt { j with failedReason := .str err.message } err).2,
           .moveToFinished err.message j.opts.removeOnFail] ∧
        (Job.moveToFailedBatch strategies now j err).2.2 = "failed") ∧
      (∀ d : Int,
        Backoffs.calculate j.opts.backoff (j.attemptsMade + 1) strategies err = some d →
        0 < d →
        (Job.moveToFailedBatch strategies now j err).2.1 =
          [(Job.saveAttempt { j with failedReason := .str err.message } err).2,
           .moveToDelayed (now + d)] ∧
        (Job.moveToFailedBatch strategies now j err).2.2 = "delayed") ∧
      (Backoffs.calculate j.opts.backoff (j.attemptsMade + 1) strategies err = some 0 →
        (Job.moveToFailedBatch strategies now j err).2.1 =
          [(Job.saveAttempt { j with failedReason := .str err.message } err).2,
           .retryJob] ∧
        (Job.moveToFailedBatch strategies now j err).2.2 = "retry")) ∧
    (¬(j.attemptsMade + 1 < j.opts.attempts ∧ j.discarded = false) →
      (Job.moveToFailedBatch strategies now j err).2.1 =
        [(Job.saveAttempt { j with failedReason := .str err.message } err).2,
         .moveToFinished err.message j.opts.removeOnFail] ∧
      (Job.moveToFailedBatch strategies now j err).2.2 = "failed") := by
  rw [moveToFailedBatch_eq]
  constructor
  · intro hcond
    refine ⟨?_, ?_, ?_⟩
    · intro hcalc
      simp only [if_pos hcond, hcalc, reduceIte]
      exact ⟨trivial, trivial⟩
    · intro d hcalc hpos
      have h1 : ¬d = -1 := by omega
      have h0 : ¬d = 0 := by omega
      simp only [if_pos hcond, hcalc, h1, h0, if_false, reduceIte]
      exact ⟨trivial, trivial⟩
    · intro hcalc
      simp only [if_pos hcond, hcalc, Int.reduceEq, reduceIte]
      exact ⟨trivial, trivial⟩
  · intro hcond
    simp only [if_neg hcond]
    exact ⟨trivial, trivial⟩

theorem C3_witness :
    (Job.moveToFailedBatch noStrategies 1000
      (Job.build (.str "a") (.obj []) { attempts := some 3, backoff := some (.num 500) } 5)
      ⟨"m", "s"⟩).2.1 =
      [(Job.saveAttempt
        { Job.build (.str "a") (.obj []) { attempts := some 3, backoff := some (.num 500) } 5 with
          failedReason := .str "m" } ⟨"m", "s"⟩).2,
       .moveToDelayed 1500] ∧
    (Job.moveToFailedBatch noStrategies 1000
      (Job.build (.str "a") (.obj []) { attempts := some 3, backoff := some (.num 500) } 5)
      ⟨"m", "s"⟩).2.2 = "delayed" :=
  ((C3_theorem noStrategies 1000
    (Job.build (.str "a") (.obj []) { attempts := some 3, backoff := some (.num 500) } 5)
    ⟨"m", "s"⟩).1 (by exact ⟨by decide, rfl⟩)).2.1 500 rfl (by decide)

/-- C4 (amended): for protocol-respecting call sequences — a failure is only
recorded while the job is still retryable — started on a fresh job in
`waiting`: (a) when `options.attempts ≥ 1`, `attemptsMade` never exceeds
`options.attempts` (the original claim fails for the default
`options.attempts = 0`, where the very first failure already yields
`attemptsMade = 1 > 0`); (b) when additionally the backoff calculation never
returns the STOP sentinel `-1` and the job is not discarded: after `k`
consecutive `MoveToFailed` calls with `options.attempts = k + 2`,
`attemptsMade = k` and the job remains retryable (waiting or delayed); and
(c) under the same hypotheses with `options.attempts = 2`, the second
failure moves the job to `failed`. -/
theorem C4_amended (strategies : String → Option (Int → ErrorInfo → Int)) (now : Int) :
    (∀ (errs : List ErrorInfo) (j : Job),
      1 ≤ j.opts.attempts → j.attemptsMade = 0 →
      (runFailProtocol strategies now errs (j, .waiting)).1.attemptsMade ≤
        (runFailProtocol strategies now errs (j, .waiting)).1.opts.attempts) ∧
    (∀ (errs : List ErrorInfo) (k : Nat) (j : Job),
      (∀ (n : Int) (e : ErrorInfo),
        Backoffs.calculate j.opts.backoff n strategies e ≠ some (-1)) →
      j.discarded = false → j.attemptsMade = 0 → j.opts.attempts = (k : Int) + 2 →
      errs.length = k →
      (runFailProtocol strategies now errs (j, .waiting)).1.attemptsMade = (k : Int) ∧
      retryable (runFailProtocol strategies now errs (j, .waiting)).2 = true) ∧
    (∀ (e1 e2 : ErrorInfo) (j : Job),
      (∀ (n : Int) (e : ErrorInfo),
        Backoffs.calculate j.opts.backoff n strategies e ≠ some (-1)) →
      j.discarded = false → j.attemptsMade = 0 → j.opts.attempts = 2 →
      (runFailProtocol strategies now [e1, e2] (j, .waiting)).1.attemptsMade = 2 ∧
      (runFailProtocol strategies now [e1, e2] (j, .waiting)).2 = .failed) := by
  refine ⟨?_, ?_, ?_⟩
  · intro errs j h1 h0
    exact runFailProtocol_bound strategies now errs j .waiting (by omega) (fun _ => by omega)
  · intro errs k j hns hd h0 hatt hlen
    have h := runFailProtocol_retry strategies now errs j .waiting hns hd rfl
      (by rw [h0, hatt, hlen]; omega)
    rw [h.1, h0, hlen]
    exact ⟨by omega, h.2.1⟩
  · intro e1 e2 j hns hd h0 hatt
    have hstep1 : runFailProtocol strategies now [e1, e2] (j, .waiting) =
        runFailProtocol strategies now [e2] (stepFail strategies now e1 (j, .waiting)) := by
      rw [runFailProtocol,
        if_pos (show retryable (j, JobState.waiting).2 = true from rfl)]
    have ham1 : (stepFail strategies now e1 (j, .waiting)).1.attemptsMade = 1 := by
      have h := stepFail_attemptsMade strategies now e1 (j, .waiting)
      rw [h]
      show j.attemptsMade + 1 = 1
      omega
    have hopts1 : (stepFail strategies now e1 (j, .waiting)).1.opts = j.opts :=
      stepFail_opts strategies now e1 (j, .waiting)
    have hretry1 : retryable (stepFail strategies now e1 (j, .waiting)).2 = true :=
      stepFail_retryable strategies now e1 (j, .waiting)
        ⟨by show j.attemptsMade + 1 < j.opts.attempts; omega, hd⟩ (hns _ e1)
    have hstep2 : runFailProtocol strategies now [e2] (stepFail strategies now e1 (j, .waiting)) =
        stepFail strategies now e2 (stepFail strategies now e1 (j, .waiting)) := by
      rw [runFailProtocol, if_pos hretry1]
      rw [runFailProtocol]
    rw [hstep1, hstep2]
    have ham2 := stepFail_attemptsMade strategies now e2 (stepFail strategies now e1 (j, .waiting))
    constructor
    · rw [ham2, ham1]
      omega
    · apply stepFail_terminal
      intro hc
      rw [ham1, hopts1, hatt] at hc
      omega

/-- C4 counterexample: with the default `options.attempts = 0` and
`discarded = false`, a single protocol-respecting `MoveToFailed` call
yields `attemptsMade = 1 > 0 = options.attempts`, refuting the claimed
invariant without any discard-forced early termination. -/
theorem C4_counterexample :
    (runFailProtocol noStrategies 0 [⟨"m", "s"⟩]
      (Job.build (.str "j") (.obj []) {} 0, .waiting)).1.attemptsMade = 1 ∧
    (runFailProtocol noStrategies 0 [⟨"m", "s"⟩]
      (Job.build (.str "j") (.obj []) {} 0, .waiting)).1.opts.attempts = 0 ∧
    (runFailProtocol noStrategies 0 [⟨"m", "s"⟩]
      (Job.build (.str "j") (.obj []) {} 0, .waiting)).1.discarded = false ∧
    ¬(1 : Int) ≤ 0 := by
  exact ⟨rfl, rfl, rfl, by omega⟩

theorem C4_witness :
    ((runFailProtocol noStrategies 0 [⟨"m", "s"⟩]
      (Job.build (.str "j") (.obj []) { attempts := some 3 } 0, .waiting)).1.attemptsMade =
        ((1 : Nat) : Int) ∧
    retryable (runFailProtocol noStrategies 0 [⟨"m", "s"⟩]
      (Job.build (.str "j") (.obj []) { attempts := some 3 } 0, .waiting)).2 = true) :=
  (C4_amended noStrategies 0).2.1 [⟨"m", "s"⟩] 1
    (Job.build (.str "j") (.obj []) { attempts := some 3 } 0)
    (by
      intro n e h
      rw [show Backoffs.calculate
        (Job.build (.str "j") (.obj []) { attempts := some 3 } 0).opts.backoff n noStrategies e =
        none from rfl] at h
      exact Option.noConfusion h)
    rfl rfl (by show (3 : Int) = ((1 : Nat) : Int) + 2; norm_num) rfl

/-- C5: a job with `discarded = true` takes the terminal failure path —
the batch's transition sub-operation is `moveToFinished` and the command is
"failed" — regardless of remaining attempts. -/
theorem C5_theorem (strategies : String → Option (Int → ErrorInfo → Int)) (now : Int)
    (j : Job) (err : ErrorInfo) (h : j.discarded = true) :
    (Job.moveToFailedBatch strategies now j err).2.1 =
      [(Job.saveAttempt { j with failedReason := .str err.message } err).2,
       .moveToFinished err.message j.opts.removeOnFail] ∧
    (Job.moveToFailedBatch strategies now j err).2.2 = "failed" := by
  rw [moveToFailedBatch_eq]
  rw [if_neg (by simp [h])]
  exact ⟨rfl, rfl⟩

theorem C5_witness :
    (Job.moveToFailedBatch noStrategies 0
      { Job.build (.str "j") (.obj []) { attempts := some 5 } 0 with discarded := true }
      ⟨"m", "s"⟩).2.2 = "failed" ∧
    ({ Job.build (.str "j") (.obj []) { attempts := some 5 } 0 with
        discarded := true } : Job).attemptsMade = 0 ∧
    ({ Job.build (.str "j") (.obj []) { attempts := some 5 } 0 with
        discarded := true } : Job).opts.attempts = 5 :=
  ⟨(C5_theorem noStrategies 0
      { Job.build (.str "j") (.obj []) { attempts := some 5 } 0 with discarded := true }
      ⟨"m", "s"⟩ rfl).2, rfl, rfl⟩

/-- C6: `moveToFailed` inspects the final result code of the executed atomic
batch; every negative code raises the typed `FinishedError` carrying the job
id and the attempted transition command (always one of "delayed", "retry",
"failed"), and any non-negative code returns normally. -/
theorem C6_theorem (strategies : String → Option (Int → ErrorInfo → Int)) (now : Int)
    (j : Job) (err : ErrorInfo) (results : List Int) (code : Int)
    (hlast : results.getLast? = some code) :
    (code < 0 →
      Job.moveToFailed strategies now j err results =
        .error { code := code, jobId := j.id,
                 command := (Job.moveToFailedBatch strategies now j err).2.2 } ∧
      ((Job.moveToFailedBatch strategies now j err).2.2 = "delayed" ∨
       (Job.moveToFailedBatch strategies now j err).2.2 = "retry" ∨
       (Job.moveToFailedBatch strategies now j err).2.2 = "failed")) ∧
    (0 ≤ code →
      Job.moveToFailed strategies now j err results =
        .ok ((Job.moveToFailedBatch strategies now j err).1,
             (Job.moveToFailedBatch strategies now j err).2.1)) := by
  have hid : (Job.moveToFailedBatch strategies now j err).1.id = j.id := by
    rw [moveToFailedBatch_fst]
    rfl
  constructor
  · intro hneg
    constructor
    · unfold Job.moveToFailed
      rw [hlast]
      simp only [Option.getD_some]
      rw [if_pos hneg, hid]
    · exact moveToFailedBatch_cmd strategies now j err
  · intro hpos
    unfold Job.moveToFailed
    rw [hlast]
    simp only [Option.getD_some]
    rw [if_neg (by omega)]

theorem C6_witness :
    Job.moveToFailed noStrategies 0 (Job.build (.str "j") (.obj []) {} 0) ⟨"m", "s"⟩ [1, -2] =
      .error { code := -2, jobId := (Job.build (.str "j") (.obj []) {} 0).id,
               command := (Job.moveToFailedBatch noStrategies 0
                 (Job.build (.str "j") (.obj []) {} 0) ⟨"m", "s"⟩).2.2 } :=
  ((C6_theorem noStrategies 0 (Job.build (.str "j") (.obj []) {} 0) ⟨"m", "s"⟩ [1, -2] (-2)
    rfl).1 (by omega)).1

/-- C7: when a completion wait is issued after the job already finished
(positive `isFinished` status), `waitUntilFinished` never subscribes to the
notification topics; with the persisted record present, a status of 2
(failed) rejects with the persisted `failedReason`, and any other finished
status resolves with the persisted `returnvalue`. -/
theorem C7_theorem (store : String → List (String × String)) (now : Int)
    (jobId : String) (status : Int) (hfin : 0 < status) :
    Job.waitUntilFinished store now jobId status ≠ .subscribed ∧
    (∀ jb, Job.fromId (some jobId) store now = .ok (some jb) →
      (status = 2 →
        Job.waitUntilFinished store now jobId status = .rejected jb.failedReason) ∧
      (¬status = 2 →
        Job.waitUntilFinished store now jobId status = .resolved jb.returnvalue)) := by
  unfold Job.waitUntilFinished
  rw [if_pos hfin]
  constructor
  · cases hf : Job.fromId (some jobId) store now with
    | error e => simp
    | ok o =>
      cases o with
      | none => simp
      | some jb =>
        by_cases h2 : status = 2
        · simp [h2]
        · simp [h2]
  · intro jb hjb
    rw [hjb]
    constructor
    · intro h2
      show (if status = 2 then WaitOutcome.rejected jb.failedReason
        else WaitOutcome.resolved jb.returnvalue) = _
      rw [if_pos h2]
    · intro h2
      show (if status = 2 then WaitOutcome.rejected jb.failedReason
        else WaitOutcome.resolved jb.returnvalue) = _
      rw [if_neg h2]

def exampleStore : String → List (String × String) := fun s =>
  if s = "7" then [("name", "x"), ("returnvalue", "9"), ("failedReason", "boom")] else []

theorem C7_witness :
    Job.waitUntilFinished exampleStore 0 "7" 1 ≠ .subscribed ∧
    Job.waitUntilFinished exampleStore 0 "7" 1 = .resolved (.num 9) := by
  have h := C7_theorem exampleStore 0 "7" 1 (by omega)
  refine ⟨h.1, ?_⟩
  have hjb : ∃ jb, Job.fromId (some "7") exampleStore 0 = .ok (some jb) := ⟨_, rfl⟩
  obtain ⟨jb, hjb⟩ := hjb
  rw [(h.2 jb hjb).2 (by omega)]
  have : (Job.fromId (some "7") exampleStore 0).map (fun o => o.map Job.returnvalue) =
      .ok (some (.num 9)) := rfl
  rw [hjb] at this
  simp only [Except.map, Option.map] at this
  injection this with h9
  injection h9 with h9b
  rw [h9b]

/-- C8: `fromId` returns "not found" rather than raising an error when the
id is absent or empty; for a present id it fetches the record's field
mapping, returns "not found" when that mapping is empty, and otherwise
returns the deserialized record. -/
theorem C8_theorem (store : String → List (String × String)) (now : Int) :
    Job.fromId none store now = .ok none ∧
    Job.fromId (some "") store now = .ok none ∧
    (∀ s, ¬s = "" → (store s).isEmpty = true → Job.fromId (some s) store now = .ok none) ∧
    (∀ s, ¬s = "" → (store s).isEmpty = false →
      Job.fromId (some s) store now =
        (Job.fromJSON (wireOfStrMap (store s)) s now).map some) := by
  refine ⟨rfl, rfl, ?_, ?_⟩
  · intro s hs he
    simp only [Job.fromId]
    rw [if_neg hs]
    simp only [he, reduceIte]
  · intro s hs he
    simp only [Job.fromId]
    rw [if_neg hs]
    simp only [he, Bool.false_eq_true, reduceIte]

theorem C8_witness :
    Job.fromId (some "8") exampleStore 0 = .ok none ∧
    Job.fromId (some "7") exampleStore 0 =
      (Job.fromJSON (wireOfStrMap (exampleStore "7")) "7" 0).map some :=
  ⟨(C8_theorem exampleStore 0).2.2.1 "8" (by simp) rfl,
   (C8_theorem exampleStore 0).2.2.2 "7" (by simp) rfl⟩

/-- C9: deserialization is defensive for the auxiliary fields — a stacktrace
field whose coerced string is malformed JSON (or parses to a non-array)
yields the empty stacktrace, and a returnvalue string that is malformed JSON
yields `undefined`; both through the helpers and through `fromJSON`, which
completes without an error in either case. -/
theorem C9_theorem :
    (∀ v : JSVal, (∀ l, ¬jsonParse (jsCoerce v) = .ok (.arr l)) → getTraces v = []) ∧
    (∀ s : String, jsonParse s = .error () → getReturnValue s = .undefined) ∧
    (∀ (rec : WireRecord) (jobId : String) (now : Int) (jb : Job),
      Job.fromJSON rec jobId now = .ok jb →
      ((∀ l, ¬jsonParse (jsCoerce rec.stacktrace) = .ok (.arr l)) →
        jb.stacktrace = some []) ∧
      (∀ s, rec.returnvalue = .str s → jsonParse s = .error () →
        jb.returnvalue = .undefined)) := by
  have htr : ∀ v : JSVal, (∀ l, ¬jsonParse (jsCoerce v) = .ok (.arr l)) → getTraces v = [] := by
    intro v h
    unfold getTraces
    split
    · next l heq => exact absurd heq (h l)
    · rfl
  have hrv : ∀ s : String, jsonParse s = .error () → getReturnValue s = .undefined := by
    intro s h
    unfold getReturnValue
    rw [h]
  refine ⟨htr, hrv, ?_⟩
  intro rec jobId now jb hok
  unfold Job.fromJSON at hok
  split at hok
  · exact absurd hok (by simp)
  · split at hok
    · exact absurd hok (by simp)
    · split at hok
      · exact absurd hok (by simp)
      · injection hok with hok
        constructor
        · intro hmal
          rw [← hok]
          show some (getTraces rec.stacktrace) = some []
          rw [htr rec.stacktrace hmal]
        · intro s hs hparse
          rw [← hok]
          show (match rec.returnvalue with
            | .str s => getReturnValue s
            | _ => JSVal.null) = JSVal.undefined
          rw [hs]
          show getReturnValue s = JSVal.undefined
          exact hrv s hparse

/-- A wire record with a malformed stacktrace and returnvalue. -/
def malformedRec : WireRecord :=
  { data := .str "1", stacktrace := .str "oops", returnvalue := .str "nope" }

theorem C9_witness :
    (Job.fromJSON malformedRec "1" 0).map (fun jb => (jb.stacktrace, jb.returnvalue)) =
      .ok (some [], .undefined) := by
  have hmal : ∀ l, ¬jsonParse (jsCoerce malformedRec.stacktrace) = .ok (.arr l) := by
    intro l h
    rw [show jsonParse (jsCoerce malformedRec.stacktrace) = .error () from rfl] at h
    exact Except.noConfusion h
  have hok : ∃ jb, Job.fromJSON malformedRec "1" 0 = .ok jb := ⟨_, rfl⟩
  obtain ⟨jb, hjb⟩ := hok
  have h := C9_theorem.2.2 malformedRec "1" 0 jb hjb
  have h1 := h.1 hmal
  have h2 := h.2 "nope" rfl (by rfl)
  rw [hjb]
  simp only [Except.map]
  rw [h1, h2]

/-- C10: for every falsy `returnValue` argument, `moveToCompleted` sets the
in-memory `returnvalue` snapshot to `0` while the stringified original
argument is what is sent to the atomic operation, so for every falsy value
other than `0` the snapshot and the transmitted serialization disagree. -/
theorem C10_theorem (j : Job) (rv : JSVal) (h : jsFalsy rv = true) :
    (Job.moveToCompleted j rv).1.returnvalue = .num 0 ∧
    (Job.moveToCompleted j rv).2 = jsonStringify rv ∧
    (¬rv = .num 0 → ¬jsonStringify rv = jsonStringify (.num 0)) := by
  refine ⟨?_, rfl, ?_⟩
  · show jsOr rv (.num 0) = .num 0
    simp [jsOr, h]
  · intro hne
    cases rv with
    | undefined => simp [jsonStringify]
    | null =>
      intro hcontra
      rw [show jsonStringify JSVal.null = some "null" from rfl,
        show jsonStringify (JSVal.num 0) = some "0" from rfl] at hcontra
      simp at hcontra
    | bool b =>
      cases b with
      | false =>
        intro hcontra
        rw [show jsonStringify (JSVal.bool false) = some "false" from rfl,
          show jsonStringify (JSVal.num 0) = some "0" from rfl] at hcontra
        simp at hcontra
      | true => simp [jsFalsy] at h
    | num n =>
      have : n = 0 := by simpa [jsFalsy] using h
      exact absurd (by rw [this]) hne
    | str s =>
      have hs : s = "" := by simpa [jsFalsy] using h
      subst hs
      intro hcontra
      rw [show jsonStringify (JSVal.str "") = some "\"\"" from rfl,
        show jsonStringify (JSVal.num 0) = some "0" from rfl] at hcontra
      simp at hcontra
    | arr l => simp [jsFalsy] at h
    | obj l => simp [jsFalsy] at h

theorem C10_witness :
    (Job.moveToCompleted (Job.build (.str "j") (.obj []) {} 0) .null).1.returnvalue = .num 0 ∧
    (Job.moveToCompleted (Job.build (.str "j") (.obj []) {} 0) .null).2 =
      jsonStringify .null ∧
    (¬JSVal.null = .num 0 → ¬jsonStringify .null = jsonStringify (.num 0)) :=
  C10_theorem (Job.build (.str "j") (.obj []) {} 0) .null rfl
